import Mathlib

/-!
Verification of a tic-tac-toe engine: a board model (current player, legal
moves, transition, winner, terminal test, utility) and an adversarial search
(minimax with alpha-beta pruning).  The definitions below are a shallow
embedding of the Python source `tictactoe.py`; boards are lists of rows of
cells, mirroring the list-of-lists representation, and the Python exception
in `result` is modelled with `Except`.
-/

namespace TicTacToe

/-- A cell of the board: `Empty` models the Python `EMPTY = None`,
`X` and `O` the two marks. -/
inductive Cell where
  | Empty : Cell
  | X : Cell
  | O : Cell
deriving DecidableEq, Repr

/-- A board is a list of rows, mirroring the Python list-of-lists
representation. -/
abbrev Board := List (List Cell)

/-- A move is a `(row, column)` coordinate pair, 0-indexed. -/
abbrev Move := Nat × Nat

/-- `initial_state()`: the 3x3 board of `EMPTY` cells. -/
def initial_state : Board :=
  [[Cell.Empty, Cell.Empty, Cell.Empty],
   [Cell.Empty, Cell.Empty, Cell.Empty],
   [Cell.Empty, Cell.Empty, Cell.Empty]]

/-- One uniform-line test of `terminal`:
`None not in line and all(x == line[0] for x in line)`.
Out-of-range `line[0]` on an empty row cannot occur on the boards of the
claims; `headD` supplies a default. -/
def uniformLine (line : List Cell) : Bool :=
  !(line.contains Cell.Empty) && line.all fun x => x == line.headD Cell.Empty

/-- `left_diag = [board[i][i] for i in range(n)]` with `n = len(board)`.
Python raises on an out-of-range index; `getD` returns a default, which
agrees with Python on square boards. -/
def leftDiag (board : Board) : List Cell :=
  (List.range board.length).map fun i => (board.getD i []).getD i Cell.Empty

/-- `right_diag = [board[i][n - i - 1] for i in range(n)]`. -/
def rightDiag (board : Board) : List Cell :=
  (List.range board.length).map fun i =>
    (board.getD i []).getD (board.length - i - 1) Cell.Empty

/-- The column built in `winner`: `[board[row][col] for row in range(n)]`. -/
def columnW (board : Board) (col : Nat) : List Cell :=
  (List.range board.length).map fun row => (board.getD row []).getD col Cell.Empty

/-- `terminal(board)`: the initial board is declared non-terminal up front;
otherwise the game has ended if some row, column or diagonal is uniform and
non-empty, or if every cell holds `X` or `O` (stalemate).  The sequence of
`if not game_ended:` assignments in the source is the disjunction below. -/
def terminal (board : Board) : Bool :=
  if board = initial_state then false
  else
    ((((board.any uniformLine)
      || (List.range (board.headD []).length).any fun col =>
            uniformLine (board.map fun row => row.getD col Cell.Empty))
      || uniformLine (leftDiag board))
      || uniformLine (rightDiag board))
      || board.all fun row => row.all fun v => v == Cell.X || v == Cell.O

/-- `sum(row.count(X) for row in board)`. -/
def countX (board : Board) : Nat := (board.map fun row => row.count Cell.X).sum

/-- `sum(row.count(O) for row in board)`. -/
def countO (board : Board) : Nat := (board.map fun row => row.count Cell.O).sum

/-- `player(board)`: `X` on the initial board, `none` on a terminal board,
otherwise `X` when `count_of_x <= count_of_o` and `O` otherwise. -/
def player (board : Board) : Option Cell :=
  if board = initial_state then some Cell.X
  else if terminal board then none
  else if countX board ≤ countO board then some Cell.X
  else some Cell.O

/-- Python's `enumerate`, with a starting index. -/
def enumerate : Nat → List α → List (Nat × α)
  | _, [] => []
  | i, x :: xs => (i, x) :: enumerate (i + 1) xs

/-- `actions(board)`: the empty set on a terminal board, otherwise all
coordinates `(row_idx, col_idx)` whose cell is `EMPTY`, in the enumeration
order of the Python set comprehension. -/
def actions (board : Board) : List Move :=
  if terminal board then []
  else
    (enumerate 0 board).flatMap fun p =>
      (enumerate 0 p.2).filterMap fun q =>
        if q.2 = Cell.Empty then some (p.1, q.1) else none

/-- The in-place update `new_board[i][j] = piece` on a deep copy of the
board. -/
def setCell : Board → Nat → Nat → Cell → Board
  | [], _, _, _ => []
  | row :: rest, 0, j, p => row.set j p :: rest
  | row :: rest, i + 1, j, p => row :: setCell rest i j p

/-- The board produced by `result` on a legal move: place the current
player's piece at `action`.  (On a terminal board `player` is `none` and
the default is never used by `result`, which raises first.) -/
def resultB (board : Board) (action : Move) : Board :=
  setCell board action.1 action.2 ((player board).getD Cell.Empty)

/-- `result(board, action)`: raises `ValueError("Impossible move detected")`
when the action is not among `actions(board)` or when `player(board)` is
`None`; otherwise returns the updated deep copy. -/
def result (board : Board) (action : Move) : Except String Board :=
  if action ∈ actions board then
    match player board with
    | some _ => Except.ok (resultB board action)
    | none => Except.error "Impossible move detected"
  else Except.error "Impossible move detected"

/-- The shared scan of `winner`: return the mark of the first line that is
all `X` (checked first) or all `O`; `none` when no line qualifies. -/
def firstXO : List (List Cell) → Option Cell
  | [] => none
  | line :: rest =>
    if line.all fun c => c == Cell.X then some Cell.X
    else if line.all fun c => c == Cell.O then some Cell.O
    else firstXO rest

/-- The lines scanned by `winner` and `utility`, in source order: all rows,
all columns, the left diagonal, the right diagonal. -/
def allLines (board : Board) : List (List Cell) :=
  board ++ ((List.range board.length).map fun col => columnW board col)
    ++ [leftDiag board, rightDiag board]

/-- `winner(board)`: scan rows, columns and the two diagonals in order and
return the mark of the first uniform line, `None` otherwise. -/
def winner (board : Board) : Option Cell :=
  firstXO (allLines board)

/-- The scan of `utility`, identical to `winner`'s but returning `1`, `-1`
or falling through to `0`. -/
def utilityScan : List (List Cell) → ℤ
  | [] => 0
  | line :: rest =>
    if line.all fun c => c == Cell.X then 1
    else if line.all fun c => c == Cell.O then -1
    else utilityScan rest

/-- `utility(board)`: `1` if `X` has a uniform line, `-1` if `O` has one,
`0` otherwise, scanning the same lines in the same order as `winner`. -/
def utility (board : Board) : ℤ :=
  utilityScan (allLines board)

/-- Number of `EMPTY` cells on the board; the measure of the search
recursion. -/
def countEmpty (board : Board) : Nat :=
  (board.map fun row => row.count Cell.Empty).sum

/-- Well-formed 3x3 board: three rows of three cells. -/
def Wf3 (board : Board) : Prop :=
  board.length = 3 ∧ ∀ r ∈ board, r.length = 3

/-- Boards reachable from the initial board by legal play through `result`. -/
inductive Reachable : Board → Prop where
  | init : Reachable initial_state
  | step {b b' : Board} {a : Move} : Reachable b → a ∈ actions b →
      result b a = Except.ok b' → Reachable b'

theorem mem_enumerate {α : Type} (l : List α) :
    ∀ (k : Nat) (p : Nat × α),
      p ∈ enumerate k l ↔ ∃ i, l[i]? = some p.2 ∧ p.1 = k + i := by
  induction l with
  | nil => intro k p; simp [enumerate]
  | cons x xs ih =>
    intro k p
    simp only [enumerate, List.mem_cons, ih (k + 1)]
    constructor
    · rintro (rfl | ⟨i, hi, hp⟩)
      · exact ⟨0, by simp⟩
      · exact ⟨i + 1, by simpa using hi, by omega⟩
    · rintro ⟨i, hi, hp⟩
      match i, hi, hp with
      | 0, hi, hp =>
        left
        simp only [List.getElem?_cons_zero, Option.some.injEq] at hi
        obtain ⟨p1, p2⟩ := p
        simp only at hi hp ⊢
        subst hi
        have hk : p1 = k := by omega
        rw [hk]
      | i + 1, hi, hp =>
        right
        exact ⟨i, by simpa using hi, by omega⟩

theorem actions_mem {b : Board} {a : Move} :
    a ∈ actions b ↔
      terminal b = false ∧ ∃ row, b[a.1]? = some row ∧ row[a.2]? = some Cell.Empty := by
  unfold actions
  by_cases h : terminal b = true
  · simp [h]
  · rw [Bool.not_eq_true] at h
    rw [if_neg (by simp [h])]
    simp only [h, true_and, List.mem_flatMap, List.mem_filterMap]
    constructor
    · rintro ⟨p, hp, q, hq, hpq⟩
      by_cases he : q.2 = Cell.Empty
      · simp only [he, if_true, Option.some.injEq] at hpq
        rw [mem_enumerate] at hp hq
        obtain ⟨i, hi, hki⟩ := hp
        obtain ⟨j, hj, hkj⟩ := hq
        refine ⟨p.2, ?_, ?_⟩
        · rw [← hpq]; simpa [hki] using hi
        · rw [← hpq]; simp only; rw [show q.1 = j by omega, hj, he]
      · simp [he] at hpq
    · rintro ⟨row, hrow, hcell⟩
      refine ⟨(a.1, row), ?_, (a.2, Cell.Empty), ?_, ?_⟩
      · rw [mem_enumerate]; exact ⟨a.1, by simpa using hrow, by omega⟩
      · rw [mem_enumerate]; exact ⟨a.2, by simpa using hcell, by omega⟩
      · simp

theorem terminal_actions_eq_nil {b : Board} (h : terminal b = true) :
    actions b = [] := by
  unfold actions; simp [h]

theorem not_terminal_of_mem_actions {b : Board} {a : Move} (h : a ∈ actions b) :
    terminal b = false :=
  (actions_mem.mp h).1

theorem player_cases {b : Board} (h : terminal b = false) :
    player b = some Cell.X ∨ player b = some Cell.O := by
  unfold player
  by_cases hinit : b = initial_state
  · simp [hinit]
  · simp only [hinit, if_false, h, Bool.false_eq_true]
    by_cases hc : countX b ≤ countO b <;> simp [hc]

theorem player_some_ne_empty {b : Board} (h : terminal b = false) :
    ∃ p, player b = some p ∧ p ≠ Cell.Empty := by
  rcases player_cases h with hp | hp
  · exact ⟨Cell.X, hp, by simp⟩
  · exact ⟨Cell.O, hp, by simp⟩

theorem count_set_empty :
    ∀ (row : List Cell) (j : Nat) (p : Cell),
      row[j]? = some Cell.Empty → p ≠ Cell.Empty →
      (row.set j p).count Cell.Empty + 1 = row.count Cell.Empty := by
  intro row
  induction row with
  | nil => intro j p h; simp at h
  | cons c cs ih =>
    intro j p h hp
    match j with
    | 0 =>
      simp only [List.getElem?_cons_zero, Option.some.injEq] at h
      subst h
      simp [List.count_cons, hp]
    | j + 1 =>
      simp only [List.getElem?_cons_succ] at h
      simp only [List.set]
      simp only [List.count_cons]
      have := ih j p h hp
      omega

theorem countEmpty_setCell :
    ∀ (b : Board) (i j : Nat) (p : Cell) (row : List Cell),
      b[i]? = some row → row[j]? = some Cell.Empty → p ≠ Cell.Empty →
      countEmpty (setCell b i j p) + 1 = countEmpty b := by
  intro b
  induction b with
  | nil => intro i j p row h; simp at h
  | cons r rs ih =>
    intro i j p row h hcell hp
    match i with
    | 0 =>
      simp only [List.getElem?_cons_zero, Option.some.injEq] at h
      subst h
      simp only [setCell, countEmpty, List.map_cons, List.sum_cons]
      have := count_set_empty r j p hcell hp
      omega
    | i + 1 =>
      simp only [List.getElem?_cons_succ] at h
      simp only [setCell, countEmpty, List.map_cons, List.sum_cons]
      have := ih i j p row h hcell hp
      simp only [countEmpty] at this
      omega

theorem countEmpty_resultB {b : Board} {a : Move} (h : a ∈ actions b) :
    countEmpty (resultB b a) + 1 = countEmpty b := by
  obtain ⟨hterm, row, hrow, hcell⟩ := actions_mem.mp h
  obtain ⟨p, hp, hpe⟩ := player_some_ne_empty hterm
  unfold resultB
  rw [hp]
  exact countEmpty_setCell b a.1 a.2 p row hrow hcell hpe

theorem countEmpty_resultB_lt {b : Board} {a : Move} (h : a ∈ actions b) :
    countEmpty (resultB b a) < countEmpty b := by
  have := countEmpty_resultB h
  omega

theorem terminal_of_countEmpty_zero {b : Board} (h : countEmpty b = 0) :
    terminal b = true := by
  have hne : b ≠ initial_state := by
    intro heq
    rw [heq] at h
    simp [countEmpty, initial_state] at h
  unfold terminal
  rw [if_neg hne]
  have hfull : (b.all fun row => row.all fun v => v == Cell.X || v == Cell.O) = true := by
    rw [List.all_eq_true]
    intro row hrow
    rw [List.all_eq_true]
    intro v hv
    have hrc : row.count Cell.Empty = 0 := by
      have := List.sum_eq_zero_iff.mp h (row.count Cell.Empty)
        (List.mem_map.mpr ⟨row, hrow, rfl⟩)
      exact this
    have : Cell.Empty ∉ row := List.count_eq_zero.mp hrc
    cases v with
    | Empty => exact absurd hv this
    | X => rfl
    | O => rfl
  rw [hfull]
  simp

theorem inner_filterMap_length (i : Nat) :
    ∀ (row : List Cell) (k : Nat),
      (((enumerate k row).filterMap fun q =>
        if q.2 = Cell.Empty then some (i, q.1) else none)).length
        = row.count Cell.Empty := by
  intro row
  induction row with
  | nil => intro k; rfl
  | cons c cs ih =>
    intro k
    by_cases hc : c = Cell.Empty
    · subst hc
      simp [enumerate, List.filterMap_cons, List.count_cons, ih (k + 1)]
    · have hb : (c == Cell.Empty) = false := by simpa using hc
      simp [enumerate, List.filterMap_cons, hc, List.count_cons, hb, ih (k + 1)]

theorem enumerate_map_sum :
    ∀ (b : Board) (k : Nat),
      (((enumerate k b).map fun p => (p.2).count Cell.Empty)).sum = countEmpty b := by
  intro b
  induction b with
  | nil => intro k; rfl
  | cons r rs ih =>
    intro k
    simp only [enumerate, List.map_cons, List.sum_cons, ih (k + 1), countEmpty,
      List.map_cons, List.sum_cons]

theorem actions_length {b : Board} (h : terminal b = false) :
    (actions b).length = countEmpty b := by
  unfold actions
  rw [if_neg (by simp [h])]
  rw [List.length_flatMap]
  rw [← enumerate_map_sum b 0]
  congr 1
  apply List.map_congr_left
  intro p _
  exact inner_filterMap_length p.1 p.2 0

theorem actions_ne_nil {b : Board} (h : terminal b = false) :
    actions b ≠ [] := by
  intro hnil
  have hlen : countEmpty b = 0 := by
    rw [← actions_length h, hnil]; rfl
  rw [terminal_of_countEmpty_zero hlen] at h
  exact absurd h (by simp)

/-- The value domain of the alpha-beta search: the integers extended with
`float("-inf")` and `float("inf")`, ordered in the obvious way.  Only
comparisons, `max` and `min` are used, so this models exactly the Python
float arithmetic the search performs on `-1`, `0`, `1` and the two
infinities. -/
inductive Val where
  | ninf : Val
  | fin : ℤ → Val
  | pinf : Val
deriving DecidableEq, Repr

/-- Boolean comparison on `Val`. -/
def Val.leb : Val → Val → Bool
  | .ninf, _ => true
  | _, .pinf => true
  | .pinf, _ => false
  | _, .ninf => false
  | .fin a, .fin b => decide (a ≤ b)

/-- Boolean strict comparison on `Val`. -/
def Val.ltb : Val → Val → Bool
  | _, .ninf => false
  | .ninf, _ => true
  | .pinf, _ => false
  | .fin _, .pinf => true
  | .fin a, .fin b => decide (a < b)

instance : LE Val := ⟨fun a b => Val.leb a b = true⟩

instance : LT Val := ⟨fun a b => Val.ltb a b = true⟩

theorem Val.le_def {a b : Val} : a ≤ b ↔ Val.leb a b = true := Iff.rfl

theorem Val.lt_def {a b : Val} : a < b ↔ Val.ltb a b = true := Iff.rfl

instance (a b : Val) : Decidable (a ≤ b) := instDecidableEqBool (Val.leb a b) true

instance (a b : Val) : Decidable (a < b) := instDecidableEqBool (Val.ltb a b) true

instance : LinearOrder Val where
  le := (· ≤ ·)
  lt := (· < ·)
  le_refl a := by cases a <;> simp [Val.le_def, Val.leb]
  le_trans a b c := by
    cases a <;> cases b <;> cases c <;> simp [Val.le_def, Val.leb] <;> omega
  le_antisymm a b := by
    cases a <;> cases b <;> simp [Val.le_def, Val.leb] <;> omega
  le_total a b := by
    cases a <;> cases b <;> simp [Val.le_def, Val.leb] <;> omega
  lt_iff_le_not_le a b := by
    cases a <;> cases b <;> simp [Val.le_def, Val.lt_def, Val.leb, Val.ltb] <;> omega
  decidableLE a b := instDecidableEqBool (Val.leb a b) true

instance : Bot Val := ⟨Val.ninf⟩

instance : Top Val := ⟨Val.pinf⟩

instance : OrderBot Val where
  bot_le a := by cases a <;> rfl

instance : OrderTop Val where
  le_top a := by cases a <;> rfl

/-- Embedding of the integer utilities into the search's value domain. -/
def iv (z : ℤ) : Val := Val.fin z

theorem iv_le_iv {a b : ℤ} : iv a ≤ iv b ↔ a ≤ b := by
  simp [Val.le_def, iv, Val.leb]

theorem iv_lt_iv {a b : ℤ} : iv a < iv b ↔ a < b := by
  simp [Val.lt_def, iv, Val.ltb]

theorem iv_inj {a b : ℤ} : iv a = iv b ↔ a = b := by
  simp [iv]

theorem bot_lt_iv (z : ℤ) : (⊥ : Val) < iv z := by
  simp [Val.lt_def, iv, Val.ltb, Bot.bot]

theorem iv_lt_top (z : ℤ) : iv z < (⊤ : Val) := by
  simp [Val.lt_def, iv, Val.ltb, Top.top]

theorem bot_lt_top_val : (⊥ : Val) < (⊤ : Val) := by
  simp [Val.lt_def, Val.ltb, Top.top, Bot.bot]

theorem max_iv (a b : ℤ) : max (iv a) (iv b) = iv (max a b) := by
  rcases le_total a b with h | h
  · rw [max_eq_right (iv_le_iv.mpr h), max_eq_right h]
  · rw [max_eq_left (iv_le_iv.mpr h), max_eq_left h]

theorem min_iv (a b : ℤ) : min (iv a) (iv b) = iv (min a b) := by
  rcases le_total a b with h | h
  · rw [min_eq_left (iv_le_iv.mpr h), min_eq_left h]
  · rw [min_eq_right (iv_le_iv.mpr h), min_eq_right h]

theorem val_cases (x : Val) : x = ⊥ ∨ x = ⊤ ∨ ∃ z, x = iv z := by
  cases x with
  | ninf => exact Or.inl rfl
  | pinf => exact Or.inr (Or.inl rfl)
  | fin z => exact Or.inr (Or.inr ⟨z, rfl⟩)

theorem le_bot_iff_val {x : Val} : x ≤ ⊥ ↔ x = ⊥ := le_bot_iff

theorem top_le_iff_val {x : Val} : ⊤ ≤ x ↔ x = ⊤ := top_le_iff

/-- Maximum of a list of integers (used only on nonempty lists, where it is
the genuine maximum; the `[]` default is never relied upon). -/
def intListMax : List ℤ → ℤ
  | [] => 0
  | [x] => x
  | x :: y :: rest => max x (intListMax (y :: rest))

/-- Minimum of a list of integers, dual to `intListMax`. -/
def intListMin : List ℤ → ℤ
  | [] => 0
  | [x] => x
  | x :: y :: rest => min x (intListMin (y :: rest))

theorem le_intListMax_of_mem : ∀ {l : List ℤ} {z : ℤ}, z ∈ l → z ≤ intListMax l := by
  intro l
  induction l with
  | nil => intro z hz; simp at hz
  | cons x xs ih =>
    intro z hz
    match xs, hz with
    | [], hz => simp at hz; simp [intListMax, hz]
    | y :: rest, hz =>
      rw [List.mem_cons] at hz
      rcases hz with rfl | hz
      · exact le_trans (le_refl z) (le_max_left _ _)
      · exact le_trans (ih hz) (le_max_right _ _)

theorem intListMin_le_of_mem : ∀ {l : List ℤ} {z : ℤ}, z ∈ l → intListMin l ≤ z := by
  intro l
  induction l with
  | nil => intro z hz; simp at hz
  | cons x xs ih =>
    intro z hz
    match xs, hz with
    | [], hz => simp at hz; simp [intListMin, hz]
    | y :: rest, hz =>
      rw [List.mem_cons] at hz
      rcases hz with rfl | hz
      · exact min_le_left _ _
      · exact le_trans (min_le_right _ _) (ih hz)

/-- The game-theoretic minimax value, with no pruning: the utility on a
terminal board, otherwise the maximum (`isMax = true`) or minimum over all
legal moves of the opponent-side value of the successor board.  This is the
specification the alpha-beta search is verified against. -/
def gameVal (isMax : Bool) (board : Board) : ℤ :=
  if terminal board then utility board
  else if isMax then
    intListMax ((actions board).attach.map fun a => gameVal false (resultB board a.1))
  else
    intListMin ((actions board).attach.map fun a => gameVal true (resultB board a.1))
termination_by countEmpty board
decreasing_by all_goals exact countEmpty_resultB_lt a.2

/-- Game-theoretic value with the maximizing player (X) to move. -/
def maxValue (board : Board) : ℤ := gameVal true board

/-- Game-theoretic value with the minimizing player (O) to move. -/
def minValue (board : Board) : ℤ := gameVal false board

/-- The `for action in actions(board)` loop of `maximizing_action`:
carries the running value `v`, the best action so far, and the evolving
`alpha`; `child` evaluates `minimizing_action(result(board, action), alpha,
beta)`.  The `break` on `beta <= alpha` is the early return. -/
def maxLoop (b : Board) (child : {a : Move // a ∈ actions b} → Val → Val → Val) :
    List {a : Move // a ∈ actions b} → Val → Option Move → Val → Val → Val × Option Move
  | [], v, best, _, _ => (v, best)
  | a :: rest, v, best, alpha, beta =>
    if v < child a alpha beta then
      if beta ≤ max alpha (child a alpha beta) then (child a alpha beta, some a.1)
      else maxLoop b child rest (child a alpha beta) (some a.1)
        (max alpha (child a alpha beta)) beta
    else
      if beta ≤ max alpha v then (v, best)
      else maxLoop b child rest v best (max alpha v) beta

/-- The loop of `minimizing_action`, dual to `maxLoop`. -/
def minLoop (b : Board) (child : {a : Move // a ∈ actions b} → Val → Val → Val) :
    List {a : Move // a ∈ actions b} → Val → Option Move → Val → Val → Val × Option Move
  | [], v, best, _, _ => (v, best)
  | a :: rest, v, best, alpha, beta =>
    if child a alpha beta < v then
      if min beta (child a alpha beta) ≤ alpha then (child a alpha beta, some a.1)
      else minLoop b child rest (child a alpha beta) (some a.1) alpha
        (min beta (child a alpha beta))
    else
      if min beta v ≤ alpha then (v, best)
      else minLoop b child rest v best alpha (min beta v)

mutual
/-- `maximizing_action(board, alpha, beta)`: on a terminal board return
`(utility(board), None)`; otherwise run the loop over the legal actions with
`v = -inf`, updating `v`/`best_action` when a recursive `minimizing_action`
value strictly exceeds `v`, raising `alpha`, and pruning once
`beta <= alpha`. -/
def maximizing_action (board : Board) (alpha beta : Val) : Val × Option Move :=
  if terminal board then (iv (utility board), none)
  else
    maxLoop board (fun a al be => (minimizing_action (resultB board a.1) al be).1)
      (actions board).attach ⊥ none alpha beta
termination_by countEmpty board
decreasing_by exact countEmpty_resultB_lt a.2

/-- `minimizing_action(board, alpha, beta)`, dual to `maximizing_action`:
starts from `v = +inf`, lowers `beta`, same pruning condition. -/
def minimizing_action (board : Board) (alpha beta : Val) : Val × Option Move :=
  if terminal board then (iv (utility board), none)
  else
    minLoop board (fun a al be => (maximizing_action (resultB board a.1) al be).1)
      (actions board).attach ⊤ none alpha beta
termination_by countEmpty board
decreasing_by exact countEmpty_resultB_lt a.2
end

/-- `minimax(board)`: `None` on a terminal board; on the initial board a
random legal action — modelled by the `pick` parameter standing for
`random.choice` on the list of actions; otherwise the action component of
the maximizing (X to move) or minimizing (O to move) search started with
`alpha = -inf`, `beta = +inf`.  The final implicit `return None` of the
Python function is the catch-all branch. -/
def minimax (pick : List Move → Option Move) (board : Board) : Option Move :=
  if terminal board then none
  else if board = initial_state then pick (actions board)
  else
    match player board with
    | some Cell.X => (maximizing_action board ⊥ ⊤).2
    | some Cell.O => (minimizing_action board ⊥ ⊤).2
    | _ => none

/-- Both sides repeatedly apply the move returned by `minimax` through
`result`, for at most `fuel` moves: the self-play loop of the optimality
claim. -/
def selfPlay (pick : List Move → Option Move) : Nat → Board → Board
  | 0, b => b
  | n + 1, b =>
    if terminal b then b
    else
      match minimax pick b with
      | none => b
      | some a =>
        match result b a with
        | Except.ok b2 => selfPlay pick n b2
        | Except.error _ => b

/-- The empty-cell coordinates of a board, with no terminal check: equal to
`actions` on non-terminal boards. -/
def emptyCells (board : Board) : List Move :=
  (enumerate 0 board).flatMap fun p =>
    (enumerate 0 p.2).filterMap fun q =>
      if q.2 = Cell.Empty then some (p.1, q.1) else none

theorem actions_eq_emptyCells {b : Board} (h : terminal b = false) :
    actions b = emptyCells b := by
  unfold actions emptyCells
  rw [if_neg (by simp [h])]

/-- Whether the cell at the given coordinates exists and is `Empty`. -/
def isEmptyCell (board : Board) (m : Move) : Bool :=
  match board[m.1]? with
  | some row =>
    match row[m.2]? with
    | some c => c == Cell.Empty
    | none => false
  | none => false

/-- A fixed exploration order (centre, corners, edges) used only by the
draw-certificate checkers below; any order is sound. -/
def ordMoves : List Move :=
  [(1, 1), (0, 0), (0, 2), (2, 0), (2, 2), (0, 1), (1, 0), (1, 2), (2, 1)]

/-- `occ v`: the cell holds a mark (`X` or `O`). -/
def occ (v : Cell) : Bool := v == Cell.X || v == Cell.O

/-- Fast uniform-line test on an explicit three-cell line, equal to
`uniformLine [x, y, z]` (`uniformF_eq`). -/
def uniformF (x y z : Cell) : Bool :=
  (x == y && y == z) && !(x == Cell.Empty)

/-- Fast all-`X` test on a three-cell line. -/
def allXF (x y z : Cell) : Bool := x == Cell.X && (y == Cell.X && z == Cell.X)

/-- Fast all-`O` test on a three-cell line. -/
def allOF (x y z : Cell) : Bool := x == Cell.O && (y == Cell.O && z == Cell.O)

instance : Fintype Cell where
  elems := {Cell.Empty, Cell.X, Cell.O}
  complete := by intro x; cases x <;> decide

theorem uniformLine_triple (x y z : Cell) :
    uniformLine [x, y, z] = uniformF x y z := by
  revert x y z; decide

theorem allX_triple (x y z : Cell) :
    ([x, y, z].all fun c => c == Cell.X) = allXF x y z := by
  revert x y z; decide

theorem allO_triple (x y z : Cell) :
    ([x, y, z].all fun c => c == Cell.O) = allOF x y z := by
  revert x y z; decide

/-- `terminal` on an explicitly destructured 3x3 board (used by the
certificate checkers for speed; `terminalC_eq` relates it to `terminal`). -/
def terminalC (a b c d e f g h i : Cell) : Bool :=
  ((((uniformF a b c || (uniformF d e f || uniformF g h i))
    || (uniformF a d g || (uniformF b e h || uniformF c f i)))
    || uniformF a e i)
    || uniformF c e g)
    || ((occ a && (occ b && occ c)) && ((occ d && (occ e && occ f)) &&
        (occ g && (occ h && occ i))))

/-- `utility` on an explicitly destructured 3x3 board. -/
def utilityC (a b c d e f g h i : Cell) : ℤ :=
  if allXF a b c then 1 else if allOF a b c then -1
  else if allXF d e f then 1 else if allOF d e f then -1
  else if allXF g h i then 1 else if allOF g h i then -1
  else if allXF a d g then 1 else if allOF a d g then -1
  else if allXF b e h then 1 else if allOF b e h then -1
  else if allXF c f i then 1 else if allOF c f i then -1
  else if allXF a e i then 1 else if allOF a e i then -1
  else if allXF c e g then 1 else if allOF c e g then -1
  else 0

/-- Prepend a move to a list when the condition holds. -/
def consIf (c : Prop) [Decidable c] (m : Move) (l : List Move) : List Move :=
  if c then m :: l else l

/-- The empty cells of an explicitly destructured 3x3 board, in row-major
order. -/
def emptyCellsC (a b c d e f g h i : Cell) : List Move :=
  consIf (a = Cell.Empty) (0, 0) <| consIf (b = Cell.Empty) (0, 1) <|
    consIf (c = Cell.Empty) (0, 2) <| consIf (d = Cell.Empty) (1, 0) <|
    consIf (e = Cell.Empty) (1, 1) <| consIf (f = Cell.Empty) (1, 2) <|
    consIf (g = Cell.Empty) (2, 0) <| consIf (h = Cell.Empty) (2, 1) <|
    consIf (i = Cell.Empty) (2, 2) []

/-- Fast `terminal` for the checkers: destructure once and work on cells. -/
def terminalF : Board → Bool
  | [[a, b, c], [d, e, f], [g, h, i]] => terminalC a b c d e f g h i
  | _ => false

/-- Fast `utility` for the checkers. -/
def utilityF : Board → ℤ
  | [[a, b, c], [d, e, f], [g, h, i]] => utilityC a b c d e f g h i
  | _ => 0

/-- Fast `emptyCells` for the checkers. -/
def emptyCellsF : Board → List Move
  | [[a, b, c], [d, e, f], [g, h, i]] => emptyCellsC a b c d e f g h i
  | _ => []

/-- Certificate checker for an upper bound on the game value: verifies
`minValue b ≤ v` (`isO = true`, O to move) or `maxValue b ≤ v`
(`isO = false`, X to move) by exhibiting a move for O and checking all
moves for X, placing the mark of the side to move directly. -/
def ubChk (v : ℤ) : Nat → Bool → Board → Bool
  | 0, _, b => decide (utilityF b ≤ v)
  | n + 1, isO, b =>
    if terminalF b then decide (utilityF b ≤ v)
    else if isO then
      (ordMoves.filter fun m => isEmptyCell b m).any fun m =>
        ubChk v n false (setCell b m.1 m.2 Cell.O)
    else
      (emptyCellsF b).all fun m =>
        ubChk v n true (setCell b m.1 m.2 Cell.X)

/-- Certificate checker for a lower bound on the game value: verifies
`v ≤ minValue b` (`isO = true`) or `v ≤ maxValue b` (`isO = false`) by
checking all moves for O and exhibiting a move for X. -/
def lbChk (v : ℤ) : Nat → Bool → Board → Bool
  | 0, _, b => decide (v ≤ utilityF b)
  | n + 1, isO, b =>
    if terminalF b then decide (v ≤ utilityF b)
    else if isO then
      (emptyCellsF b).all fun m =>
        lbChk v n false (setCell b m.1 m.2 Cell.O)
    else
      (ordMoves.filter fun m => isEmptyCell b m).any fun m =>
        lbChk v n true (setCell b m.1 m.2 Cell.X)

theorem wf3_shape {b : Board} (h : Wf3 b) :
    ∃ c00 c01 c02 c10 c11 c12 c20 c21 c22 : Cell,
      b = [[c00, c01, c02], [c10, c11, c12], [c20, c21, c22]] := by
  obtain ⟨hlen, hrows⟩ := h
  obtain ⟨r0, r1, r2, rfl⟩ := List.length_eq_three.mp hlen
  obtain ⟨a, b0, c, rfl⟩ := List.length_eq_three.mp (hrows r0 (by simp))
  obtain ⟨d, e, f, rfl⟩ := List.length_eq_three.mp (hrows r1 (by simp))
  obtain ⟨g, h2, i, rfl⟩ := List.length_eq_three.mp (hrows r2 (by simp))
  exact ⟨a, b0, c, d, e, f, g, h2, i, rfl⟩

theorem terminalC_eq (a b c d e f g h i : Cell) :
    terminal [[a, b, c], [d, e, f], [g, h, i]] = terminalC a b c d e f g h i := by
  by_cases hb : ([[a, b, c], [d, e, f], [g, h, i]] : Board) = initial_state
  · rw [hb]
    have hh : (a = Cell.Empty ∧ b = Cell.Empty ∧ c = Cell.Empty) ∧
        (d = Cell.Empty ∧ e = Cell.Empty ∧ f = Cell.Empty) ∧
        g = Cell.Empty ∧ h = Cell.Empty ∧ i = Cell.Empty := by
      simpa [initial_state] using hb
    obtain ⟨⟨rfl, rfl, rfl⟩, ⟨rfl, rfl, rfl⟩, rfl, rfl, rfl⟩ := hh
    decide
  · rw [terminal, if_neg hb]
    show (((((uniformLine [a,b,c] || (uniformLine [d,e,f] || (uniformLine [g,h,i] || false)))
        || (uniformLine [a,d,g] || (uniformLine [b,e,h] || (uniformLine [c,f,i] || false))))
        || uniformLine [a,e,i])
        || uniformLine [c,e,g])
        || (((a == Cell.X || a == Cell.O) && ((b == Cell.X || b == Cell.O) && ((c == Cell.X || c == Cell.O) && true)))
           && (((d == Cell.X || d == Cell.O) && ((e == Cell.X || e == Cell.O) && ((f == Cell.X || f == Cell.O) && true)))
           && (((g == Cell.X || g == Cell.O) && ((h == Cell.X || h == Cell.O) && ((i == Cell.X || i == Cell.O) && true))) && true))))
        = terminalC a b c d e f g h i
    simp only [uniformLine_triple, Bool.or_false, Bool.and_true]
    rfl

theorem allLines_explicit (a b c d e f g h i : Cell) :
    allLines [[a, b, c], [d, e, f], [g, h, i]] =
      [[a,b,c],[d,e,f],[g,h,i],[a,d,g],[b,e,h],[c,f,i],[a,e,i],[c,e,g]] := rfl

theorem utilityC_eq (a b c d e f g h i : Cell) :
    utility [[a, b, c], [d, e, f], [g, h, i]] = utilityC a b c d e f g h i := by
  rw [utility, allLines_explicit]
  simp only [utilityScan, allX_triple, allO_triple]
  rfl

theorem filterMap_empty_cons (i j : Nat) (x : Cell) (rest : List (Nat × Cell)) :
    List.filterMap (fun q => if q.2 = Cell.Empty then some (i, q.1) else none) ((j, x) :: rest)
      = consIf (x = Cell.Empty) (i, j)
          (List.filterMap (fun q => if q.2 = Cell.Empty then some (i, q.1) else none) rest) := by
  by_cases hx : x = Cell.Empty <;> simp [consIf, List.filterMap_cons, hx]

theorem consIf_append (c : Prop) [Decidable c] (m : Move) (l1 l2 : List Move) :
    consIf c m l1 ++ l2 = consIf c m (l1 ++ l2) := by
  by_cases hc : c <;> simp [consIf, hc]

theorem emptyCellsC_eq (a b c d e f g h i : Cell) :
    emptyCells [[a, b, c], [d, e, f], [g, h, i]] = emptyCellsC a b c d e f g h i := by
  rw [emptyCells]
  show (enumerate 0 [[a,b,c],[d,e,f],[g,h,i]]).flatMap (fun p =>
      (enumerate 0 p.2).filterMap fun q =>
        if q.2 = Cell.Empty then some (p.1, q.1) else none) = emptyCellsC a b c d e f g h i
  have he : enumerate 0 ([[a,b,c],[d,e,f],[g,h,i]] : Board)
      = [(0, [a,b,c]), (1, [d,e,f]), (2, [g,h,i])] := rfl
  rw [he]
  simp only [List.flatMap_cons, List.flatMap_nil]
  show ((enumerate 0 [a,b,c]).filterMap fun q => if q.2 = Cell.Empty then some (0, q.1) else none)
      ++ (((enumerate 0 [d,e,f]).filterMap fun q => if q.2 = Cell.Empty then some (1, q.1) else none)
      ++ (((enumerate 0 [g,h,i]).filterMap fun q => if q.2 = Cell.Empty then some (2, q.1) else none)
      ++ [])) = emptyCellsC a b c d e f g h i
  have h1 : enumerate 0 [a, b, c] = [(0, a), (1, b), (2, c)] := rfl
  have h2 : enumerate 0 [d, e, f] = [(0, d), (1, e), (2, f)] := rfl
  have h3 : enumerate 0 [g, h, i] = [(0, g), (1, h), (2, i)] := rfl
  rw [h1, h2, h3]
  rw [filterMap_empty_cons, filterMap_empty_cons, filterMap_empty_cons,
    filterMap_empty_cons, filterMap_empty_cons, filterMap_empty_cons,
    filterMap_empty_cons, filterMap_empty_cons, filterMap_empty_cons]
  simp only [List.filterMap_nil, List.append_nil, consIf_append, List.nil_append]
  rfl

theorem terminalF_eq {b : Board} (h : Wf3 b) : terminalF b = terminal b := by
  obtain ⟨c00, c01, c02, c10, c11, c12, c20, c21, c22, rfl⟩ := wf3_shape h
  rw [terminalC_eq]
  rfl

theorem utilityF_eq {b : Board} (h : Wf3 b) : utilityF b = utility b := by
  obtain ⟨c00, c01, c02, c10, c11, c12, c20, c21, c22, rfl⟩ := wf3_shape h
  rw [utilityC_eq]
  rfl

theorem emptyCellsF_eq {b : Board} (h : Wf3 b) : emptyCellsF b = emptyCells b := by
  obtain ⟨c00, c01, c02, c10, c11, c12, c20, c21, c22, rfl⟩ := wf3_shape h
  rw [emptyCellsC_eq]
  rfl

theorem setCell_length (j : Nat) (p : Cell) :
    ∀ (b : Board) (i : Nat), (setCell b i j p).length = b.length := by
  intro b
  induction b with
  | nil => intro i; rfl
  | cons row rest ih =>
    intro i
    match i with
    | 0 => simp [setCell]
    | i + 1 => simp [setCell, ih i]

theorem rows_setCell {j : Nat} {p : Cell} {r : List Cell} :
    ∀ {b : Board} {i : Nat}, r ∈ setCell b i j p → r ∈ b ∨ ∃ r0 ∈ b, r = r0.set j p := by
  intro b
  induction b with
  | nil => intro i hr; simp [setCell] at hr
  | cons row rest ih =>
    intro i hr
    match i with
    | 0 =>
      rw [setCell, List.mem_cons] at hr
      rcases hr with rfl | hr
      · exact Or.inr ⟨row, List.mem_cons_self .., rfl⟩
      · exact Or.inl (List.mem_cons_of_mem _ hr)
    | i + 1 =>
      rw [setCell, List.mem_cons] at hr
      rcases hr with rfl | hr
      · exact Or.inl (List.mem_cons_self ..)
      · rcases ih hr with h1 | ⟨r0, hr0, rfl⟩
        · exact Or.inl (List.mem_cons_of_mem _ h1)
        · exact Or.inr ⟨r0, List.mem_cons_of_mem _ hr0, rfl⟩

theorem Wf3_setCell {b : Board} (i j : Nat) (p : Cell) (h : Wf3 b) :
    Wf3 (setCell b i j p) := by
  refine ⟨by rw [setCell_length]; exact h.1, fun r hr => ?_⟩
  rcases rows_setCell hr with h1 | ⟨r0, hr0, rfl⟩
  · exact h.2 r h1
  · rw [List.length_set]; exact h.2 r0 hr0

theorem Wf3_initial : Wf3 initial_state := by
  constructor
  · rfl
  · intro r hr
    simp only [initial_state, List.mem_cons, List.not_mem_nil, or_false] at hr
    rcases hr with rfl | rfl | rfl <;> rfl

theorem count_set_mark :
    ∀ (row : List Cell) (j : Nat) (p c : Cell),
      row[j]? = some Cell.Empty → c ≠ Cell.Empty →
      (row.set j p).count c = row.count c + (if p = c then 1 else 0) := by
  intro row
  induction row with
  | nil => intro j p c h; simp at h
  | cons x xs ih =>
    intro j p c h hc
    match j with
    | 0 =>
      simp only [List.getElem?_cons_zero, Option.some.injEq] at h
      subst h
      have hx : ¬(Cell.Empty == c) = true := by simpa using fun hh => hc hh.symm
      by_cases hp : p = c
      · simp [List.count_cons, hp, hx]
      · have hp2 : ¬(p == c) = true := by simpa using hp
        simp [List.count_cons, hp, hp2, hx]
    | j + 1 =>
      simp only [List.getElem?_cons_succ] at h
      simp only [List.set, List.count_cons, ih j p c h hc]
      omega

theorem sum_counts_setCell :
    ∀ (b : Board) (i j : Nat) (p c : Cell) (row : List Cell),
      b[i]? = some row → row[j]? = some Cell.Empty → c ≠ Cell.Empty →
      ((setCell b i j p).map fun r => r.count c).sum
        = (b.map fun r => r.count c).sum + (if p = c then 1 else 0) := by
  intro b
  induction b with
  | nil => intro i j p c row h; simp at h
  | cons r rs ih =>
    intro i j p c row h hcell hc
    match i with
    | 0 =>
      simp only [List.getElem?_cons_zero, Option.some.injEq] at h
      subst h
      simp only [setCell, List.map_cons, List.sum_cons,
        count_set_mark r j p c hcell hc]
      omega
    | i + 1 =>
      simp only [List.getElem?_cons_succ] at h
      simp only [setCell, List.map_cons, List.sum_cons, ih i j p c row h hcell hc]
      omega

theorem countX_setCell {b : Board} {i j : Nat} {row : List Cell}
    (h : b[i]? = some row) (hcell : row[j]? = some Cell.Empty) :
    countX (setCell b i j Cell.X) = countX b + 1 ∧
      countO (setCell b i j Cell.X) = countO b := by
  constructor
  · have := sum_counts_setCell b i j Cell.X Cell.X row h hcell (by simp)
    simpa [countX] using this
  · have := sum_counts_setCell b i j Cell.X Cell.O row h hcell (by simp)
    simpa [countO] using this

theorem countO_setCell {b : Board} {i j : Nat} {row : List Cell}
    (h : b[i]? = some row) (hcell : row[j]? = some Cell.Empty) :
    countO (setCell b i j Cell.O) = countO b + 1 ∧
      countX (setCell b i j Cell.O) = countX b := by
  constructor
  · have := sum_counts_setCell b i j Cell.O Cell.O row h hcell (by simp)
    simpa [countO] using this
  · have := sum_counts_setCell b i j Cell.O Cell.X row h hcell (by simp)
    simpa [countX] using this

theorem countX_initial : countX initial_state = 0 := rfl

theorem countO_initial : countO initial_state = 0 := rfl

theorem countEmpty_initial : countEmpty initial_state = 9 := rfl

theorem player_X_of_counts {b : Board} (ht : terminal b = false)
    (hc : countX b ≤ countO b) : player b = some Cell.X := by
  unfold player
  by_cases hb : b = initial_state
  · simp [hb]
  · simp [hb, ht, hc]

theorem player_O_of_counts {b : Board} (ht : terminal b = false)
    (hc : countO b < countX b) : player b = some Cell.O := by
  unfold player
  by_cases hb : b = initial_state
  · rw [hb] at hc; simp [countX_initial, countO_initial] at hc
  · rw [if_neg hb, ht]
    simp only [Bool.false_eq_true, if_false]
    rw [if_neg (by omega)]

theorem resultB_eq_setCell {b : Board} {a : Move} {p : Cell}
    (h : player b = some p) : resultB b a = setCell b a.1 a.2 p := by
  unfold resultB
  rw [h]
  rfl

theorem isEmptyCell_iff {b : Board} {m : Move} :
    isEmptyCell b m = true ↔
      ∃ row, b[m.1]? = some row ∧ row[m.2]? = some Cell.Empty := by
  unfold isEmptyCell
  rcases hb : b[m.1]? with _ | row
  · simp
  · rcases hc : row[m.2]? with _ | c
    · simp [hc]
    · simp [hc]

theorem intListMax_le_of_forall :
    ∀ {l : List ℤ} {v : ℤ}, l ≠ [] → (∀ z ∈ l, z ≤ v) → intListMax l ≤ v := by
  intro l
  induction l with
  | nil => intro v h; exact absurd rfl h
  | cons x xs ih =>
    intro v _ hall
    match xs with
    | [] => exact hall x (by simp)
    | y :: rest =>
      rw [intListMax]
      exact max_le (hall x (by simp))
        (ih (by simp) fun z hz => hall z (List.mem_cons_of_mem _ hz))

theorem le_intListMin_of_forall :
    ∀ {l : List ℤ} {v : ℤ}, l ≠ [] → (∀ z ∈ l, v ≤ z) → v ≤ intListMin l := by
  intro l
  induction l with
  | nil => intro v h; exact absurd rfl h
  | cons x xs ih =>
    intro v _ hall
    match xs with
    | [] => exact hall x (by simp)
    | y :: rest =>
      rw [intListMin]
      exact le_min (hall x (by simp))
        (ih (by simp) fun z hz => hall z (List.mem_cons_of_mem _ hz))

theorem gameVal_terminal {b : Board} (h : terminal b = true) (m : Bool) :
    gameVal m b = utility b := by
  rw [gameVal, if_pos h]

theorem maxValue_eq {b : Board} (h : terminal b = false) :
    maxValue b =
      intListMax ((actions b).attach.map fun a => minValue (resultB b a.1)) := by
  unfold maxValue minValue
  rw [gameVal, if_neg (by simp [h])]
  rfl

theorem minValue_eq {b : Board} (h : terminal b = false) :
    minValue b =
      intListMin ((actions b).attach.map fun a => maxValue (resultB b a.1)) := by
  unfold maxValue minValue
  rw [gameVal, if_neg (by simp [h])]
  rfl

theorem maxValue_terminal {b : Board} (h : terminal b = true) :
    maxValue b = utility b := gameVal_terminal h true

theorem minValue_terminal {b : Board} (h : terminal b = true) :
    minValue b = utility b := gameVal_terminal h false

theorem attach_map_ne_nil {l : List Move} (h : l ≠ []) (f : {a : Move // a ∈ l} → ℤ) :
    l.attach.map f ≠ [] := by
  intro hnil
  have hlen := congrArg List.length hnil
  simp only [List.length_map, List.length_attach, List.length_nil] at hlen
  exact h (List.length_eq_zero.mp hlen)

theorem minValue_child_mem {b : Board} {a : Move} (ha : a ∈ actions b) :
    minValue (resultB b a) ∈
      (actions b).attach.map fun x => minValue (resultB b x.1) :=
  List.mem_map.mpr ⟨⟨a, ha⟩, List.mem_attach _ _, rfl⟩

theorem maxValue_child_mem {b : Board} {a : Move} (ha : a ∈ actions b) :
    maxValue (resultB b a) ∈
      (actions b).attach.map fun x => maxValue (resultB b x.1) :=
  List.mem_map.mpr ⟨⟨a, ha⟩, List.mem_attach _ _, rfl⟩

/-- Counts of the successor position when X moves on a legal action. -/
theorem counts_resultB_X {b : Board} {a : Move} (ha : a ∈ actions b)
    (hp : player b = some Cell.X) :
    countX (resultB b a) = countX b + 1 ∧ countO (resultB b a) = countO b := by
  obtain ⟨_, row, hrow, hcell⟩ := actions_mem.mp ha
  rw [resultB_eq_setCell hp]
  exact countX_setCell hrow hcell

/-- Counts of the successor position when O moves on a legal action. -/
theorem counts_resultB_O {b : Board} {a : Move} (ha : a ∈ actions b)
    (hp : player b = some Cell.O) :
    countO (resultB b a) = countO b + 1 ∧ countX (resultB b a) = countX b := by
  obtain ⟨_, row, hrow, hcell⟩ := actions_mem.mp ha
  rw [resultB_eq_setCell hp]
  exact countO_setCell hrow hcell

theorem Wf3_resultB {b : Board} (a : Move) (h : Wf3 b) : Wf3 (resultB b a) :=
  Wf3_setCell a.1 a.2 _ h

/-- Soundness of the two certificate checkers: a successful `ubChk` run
bounds the game value from above, a successful `lbChk` run from below,
on 3x3 boards whose mark counts identify the side to move. -/
theorem chk_sound : ∀ (n : Nat) (v : ℤ) (b : Board), Wf3 b → countEmpty b ≤ n →
    (ubChk v n false b = true → (terminal b = true ∨ countX b = countO b) →
      maxValue b ≤ v) ∧
    (ubChk v n true b = true → (terminal b = true ∨ countX b = countO b + 1) →
      minValue b ≤ v) ∧
    (lbChk v n false b = true → (terminal b = true ∨ countX b = countO b) →
      v ≤ maxValue b) ∧
    (lbChk v n true b = true → (terminal b = true ∨ countX b = countO b + 1) →
      v ≤ minValue b) := by
  intro n
  induction n with
  | zero =>
    intro v b hwf hn
    have hterm : terminal b = true :=
      terminal_of_countEmpty_zero (Nat.le_zero.mp hn)
    have hu : ∀ w : ℤ, (decide (utilityF b ≤ w) = true → utility b ≤ w) ∧
        (decide (w ≤ utilityF b) = true → w ≤ utility b) := by
      intro w
      rw [utilityF_eq hwf]
      exact ⟨of_decide_eq_true, of_decide_eq_true⟩
    refine ⟨fun h _ => ?_, fun h _ => ?_, fun h _ => ?_, fun h _ => ?_⟩
    · rw [maxValue_terminal hterm]; exact (hu v).1 h
    · rw [minValue_terminal hterm]; exact (hu v).1 h
    · rw [maxValue_terminal hterm]; exact (hu v).2 h
    · rw [minValue_terminal hterm]; exact (hu v).2 h
  | succ n ih =>
    intro v b hwf hn
    by_cases hterm : terminal b = true
    · have htf : terminalF b = true := by rw [terminalF_eq hwf]; exact hterm
      have hu : ∀ w : ℤ, (decide (utilityF b ≤ w) = true → utility b ≤ w) ∧
          (decide (w ≤ utilityF b) = true → w ≤ utility b) := by
        intro w
        rw [utilityF_eq hwf]
        exact ⟨of_decide_eq_true, of_decide_eq_true⟩
      refine ⟨fun h _ => ?_, fun h _ => ?_, fun h _ => ?_, fun h _ => ?_⟩
      · rw [ubChk, if_pos htf] at h
        rw [maxValue_terminal hterm]; exact (hu v).1 h
      · rw [ubChk, if_pos htf] at h
        rw [minValue_terminal hterm]; exact (hu v).1 h
      · rw [lbChk, if_pos htf] at h
        rw [maxValue_terminal hterm]; exact (hu v).2 h
      · rw [lbChk, if_pos htf] at h
        rw [minValue_terminal hterm]; exact (hu v).2 h
    · rw [Bool.not_eq_true] at hterm
      have htf : terminalF b = false := by rw [terminalF_eq hwf]; exact hterm
      -- facts shared by the four branches
      have hne := actions_ne_nil hterm
      have hcover : ∀ a : Move, a ∈ actions b → a ∈ emptyCellsF b := by
        intro a ha
        rw [emptyCellsF_eq hwf, ← actions_eq_emptyCells hterm]
        exact ha
      have hfilter : ∀ m : Move,
          m ∈ (ordMoves.filter fun m => isEmptyCell b m) → m ∈ actions b := by
        intro m hm
        have := (List.mem_filter.mp hm).2
        obtain ⟨row, hrow, hcell⟩ := isEmptyCell_iff.mp this
        exact actions_mem.mpr ⟨hterm, row, hrow, hcell⟩
      have hchildn : ∀ a : Move, a ∈ actions b → countEmpty (resultB b a) ≤ n := by
        intro a ha
        have := countEmpty_resultB ha
        omega
      refine ⟨fun h hor => ?_, fun h hor => ?_, fun h hor => ?_, fun h hor => ?_⟩
      · -- ubChk, X to move: all X moves are checked
        rcases hor with hor | hcnt
        · rw [hor] at hterm; exact absurd hterm (by simp)
        have hp : player b = some Cell.X := player_X_of_counts hterm (by omega)
        rw [ubChk, if_neg (by simp [htf])] at h
        simp only [Bool.false_eq_true, if_false, List.all_eq_true] at h
        rw [maxValue_eq hterm]
        refine intListMax_le_of_forall (attach_map_ne_nil hne _) ?_
        intro z hz
        obtain ⟨⟨a, ha⟩, _, rfl⟩ := List.mem_map.mp hz
        have hchk := h a (hcover a ha)
        rw [← resultB_eq_setCell hp] at hchk
        have hcnt2 := counts_resultB_X ha hp
        exact ((ih v (resultB b a) (Wf3_resultB a hwf) (hchildn a ha)).2.1) hchk
          (Or.inr (by omega))
      · -- ubChk, O to move: one O move is exhibited
        rcases hor with hor | hcnt
        · rw [hor] at hterm; exact absurd hterm (by simp)
        have hp : player b = some Cell.O := player_O_of_counts hterm (by omega)
        rw [ubChk, if_neg (by simp [htf])] at h
        simp only [if_true, List.any_eq_true] at h
        obtain ⟨m, hmf, hchk⟩ := h
        have hm : m ∈ actions b := hfilter m hmf
        rw [← resultB_eq_setCell hp] at hchk
        have hcnt2 := counts_resultB_O hm hp
        have hchild : maxValue (resultB b m) ≤ v :=
          ((ih v (resultB b m) (Wf3_resultB m hwf) (hchildn m hm)).1) hchk
            (Or.inr (by omega))
        rw [minValue_eq hterm]
        exact le_trans (intListMin_le_of_mem (maxValue_child_mem hm)) hchild
      · -- lbChk, X to move: one X move is exhibited
        rcases hor with hor | hcnt
        · rw [hor] at hterm; exact absurd hterm (by simp)
        have hp : player b = some Cell.X := player_X_of_counts hterm (by omega)
        rw [lbChk, if_neg (by simp [htf])] at h
        simp only [Bool.false_eq_true, if_false, List.any_eq_true] at h
        obtain ⟨m, hmf, hchk⟩ := h
        have hm : m ∈ actions b := hfilter m hmf
        rw [← resultB_eq_setCell hp] at hchk
        have hcnt2 := counts_resultB_X hm hp
        have hchild : v ≤ minValue (resultB b m) :=
          ((ih v (resultB b m) (Wf3_resultB m hwf) (hchildn m hm)).2.2.2) hchk
            (Or.inr (by omega))
        rw [maxValue_eq hterm]
        exact le_trans hchild (le_intListMax_of_mem (minValue_child_mem hm))
      · -- lbChk, O to move: all O moves are checked
        rcases hor with hor | hcnt
        · rw [hor] at hterm; exact absurd hterm (by simp)
        have hp : player b = some Cell.O := player_O_of_counts hterm (by omega)
        rw [lbChk, if_neg (by simp [htf])] at h
        simp only [if_true, List.all_eq_true] at h
        rw [minValue_eq hterm]
        refine le_intListMin_of_forall (attach_map_ne_nil hne _) ?_
        intro z hz
        obtain ⟨⟨a, ha⟩, _, rfl⟩ := List.mem_map.mp hz
        have hchk := h a (hcover a ha)
        rw [← resultB_eq_setCell hp] at hchk
        have hcnt2 := counts_resultB_O ha hp
        exact ((ih v (resultB b a) (Wf3_resultB a hwf) (hchildn a ha)).2.2.1) hchk
          (Or.inr (by omega))

/-- Fold computing the true value of the remaining max-loop: the maximum of
the running value `v` and the true child values of the pending actions. -/
def tmax {b : Board} (t : Move → ℤ) (todo : List {a : Move // a ∈ actions b})
    (v : Val) : Val :=
  todo.foldr (fun a acc => max (iv (t a.1)) acc) v

/-- Dual fold for the min-loop. -/
def tmin {b : Board} (t : Move → ℤ) (todo : List {a : Move // a ∈ actions b})
    (v : Val) : Val :=
  todo.foldr (fun a acc => min (iv (t a.1)) acc) v

theorem tmax_base_le {b : Board} (t : Move → ℤ)
    (todo : List {a : Move // a ∈ actions b}) (v : Val) : v ≤ tmax t todo v := by
  induction todo with
  | nil => exact le_refl v
  | cons a rest ih => exact le_trans ih (le_max_right _ _)

theorem tmax_mono {b : Board} (t : Move → ℤ)
    (todo : List {a : Move // a ∈ actions b}) {v1 v2 : Val} (h : v1 ≤ v2) :
    tmax t todo v1 ≤ tmax t todo v2 := by
  induction todo with
  | nil => exact h
  | cons a rest ih => exact max_le_max (le_refl _) ih

theorem tmax_elem_le {b : Board} (t : Move → ℤ)
    {todo : List {a : Move // a ∈ actions b}} {a : {a : Move // a ∈ actions b}}
    (ha : a ∈ todo) (v : Val) : iv (t a.1) ≤ tmax t todo v := by
  induction todo with
  | nil => simp at ha
  | cons x rest ih =>
    rcases List.mem_cons.mp ha with rfl | ha2
    · exact le_max_left _ _
    · exact le_trans (ih ha2) (le_max_right _ _)

theorem tmax_cases {b : Board} (t : Move → ℤ)
    (todo : List {a : Move // a ∈ actions b}) (v : Val) :
    tmax t todo v = v ∨ ∃ a ∈ todo, tmax t todo v = iv (t a.1) := by
  induction todo with
  | nil => exact Or.inl rfl
  | cons x rest ih =>
    have hcons : tmax t (x :: rest) v = max (iv (t x.1)) (tmax t rest v) := rfl
    rw [hcons]
    rcases le_total (iv (t x.1)) (tmax t rest v) with h | h
    · rw [max_eq_right h]
      rcases ih with h2 | ⟨a, ha, h2⟩
      · exact Or.inl h2
      · exact Or.inr ⟨a, List.mem_cons_of_mem _ ha, h2⟩
    · rw [max_eq_left h]
      exact Or.inr ⟨x, List.mem_cons_self .., rfl⟩

theorem tmin_le_base {b : Board} (t : Move → ℤ)
    (todo : List {a : Move // a ∈ actions b}) (v : Val) : tmin t todo v ≤ v := by
  induction todo with
  | nil => exact le_refl v
  | cons a rest ih => exact le_trans (min_le_right _ _) ih

theorem tmin_mono {b : Board} (t : Move → ℤ)
    (todo : List {a : Move // a ∈ actions b}) {v1 v2 : Val} (h : v1 ≤ v2) :
    tmin t todo v1 ≤ tmin t todo v2 := by
  induction todo with
  | nil => exact h
  | cons a rest ih => exact min_le_min (le_refl _) ih

theorem tmin_le_elem {b : Board} (t : Move → ℤ)
    {todo : List {a : Move // a ∈ actions b}} {a : {a : Move // a ∈ actions b}}
    (ha : a ∈ todo) (v : Val) : tmin t todo v ≤ iv (t a.1) := by
  induction todo with
  | nil => simp at ha
  | cons x rest ih =>
    rcases List.mem_cons.mp ha with rfl | ha2
    · exact min_le_left _ _
    · exact le_trans (min_le_right _ _) (ih ha2)

theorem tmin_cases {b : Board} (t : Move → ℤ)
    (todo : List {a : Move // a ∈ actions b}) (v : Val) :
    tmin t todo v = v ∨ ∃ a ∈ todo, tmin t todo v = iv (t a.1) := by
  induction todo with
  | nil => exact Or.inl rfl
  | cons x rest ih =>
    have hcons : tmin t (x :: rest) v = min (iv (t x.1)) (tmin t rest v) := rfl
    rw [hcons]
    rcases le_total (tmin t rest v) (iv (t x.1)) with h | h
    · rw [min_eq_right h]
      rcases ih with h2 | ⟨a, ha, h2⟩
      · exact Or.inl h2
      · exact Or.inr ⟨a, List.mem_cons_of_mem _ ha, h2⟩
    · rw [min_eq_left h]
      exact Or.inr ⟨x, List.mem_cons_self .., rfl⟩

/-- Knuth-Moore contract of a child evaluation with window `(al, be)`:
the result is a finite value that is exact inside the window, an upper
bound on the true value `t a` when it fails low, and a lower bound when it
fails high. -/
def ChildKM (b : Board) (t : Move → ℤ)
    (child : {a : Move // a ∈ actions b} → Val → Val → Val) : Prop :=
  ∀ (a : {a : Move // a ∈ actions b}) (al be : Val), al < be →
    ∃ z : ℤ, child a al be = iv z ∧
      (iv z ≤ al → t a.1 ≤ z) ∧
      (al < iv z → iv z < be → z = t a.1) ∧
      (be ≤ iv z → z ≤ t a.1)

/-- What `maxLoop` guarantees relative to the true remaining value
`tmax t todo v`. -/
def MaxLoopPost (b : Board) (t : Move → ℤ)
    (todo : List {a : Move // a ∈ actions b}) (v : Val) (best : Option Move)
    (al be : Val) (R : Val × Option Move) : Prop :=
  v ≤ R.1 ∧
  (R.1 ≤ al → tmax t todo v ≤ R.1) ∧
  (al < R.1 → R.1 < be → R.1 = tmax t todo v) ∧
  (be ≤ R.1 → R.1 ≤ tmax t todo v) ∧
  (R.1 = v ∨ ∃ z : ℤ, R.1 = iv z) ∧
  (R.1 = v → R.2 = best) ∧
  (v < R.1 → al < R.1 → R.1 < be →
    ∃ a : Move, ∃ _h : a ∈ actions b, R.2 = some a ∧ iv (t a) = R.1)

theorem maxLoop_km {b : Board} {t : Move → ℤ}
    {child : {a : Move // a ∈ actions b} → Val → Val → Val}
    (hc : ChildKM b t child) :
    ∀ (todo : List {a : Move // a ∈ actions b}) (v : Val) (best : Option Move)
      (al be : Val), v ≤ al → al < be →
      MaxLoopPost b t todo v best al be (maxLoop b child todo v best al be) := by
  intro todo
  induction todo with
  | nil =>
    intro v best al be hva hab
    refine ⟨le_refl v, fun _ => le_refl v, fun _ _ => rfl, fun _ => le_refl v,
      Or.inl rfl, fun _ => rfl, fun h1 _ _ => absurd rfl (ne_of_gt h1)⟩
  | cons hd rest ih =>
    intro v best al be hva hab
    obtain ⟨a, ha⟩ := hd
    obtain ⟨z, hz, hlo, hex, hhi⟩ := hc ⟨a, ha⟩ al be hab
    rw [maxLoop, hz]
    have htmax : tmax t (⟨a, ha⟩ :: rest) v = max (iv (t a)) (tmax t rest v) := rfl
    by_cases hvr : v < iv z
    · rw [if_pos hvr]
      by_cases hbr : be ≤ max al (iv z)
      · -- prune: the child failed high
        rw [if_pos hbr]
        have hbz : be ≤ iv z := by
          rcases max_cases al (iv z) with ⟨hm, _⟩ | ⟨hm, _⟩
          · rw [hm] at hbr; exact absurd (lt_of_lt_of_le hab hbr) (lt_irrefl al)
          · rw [hm] at hbr; exact hbr
        have hta : z ≤ t a := hhi hbz
        refine ⟨le_of_lt hvr, ?_, ?_, ?_, Or.inr ⟨z, rfl⟩, ?_, ?_⟩
        · intro h1
          exact absurd (lt_of_lt_of_le hab (le_trans hbz h1)) (lt_irrefl al)
        · intro _ h2
          exact absurd (lt_of_le_of_lt hbz h2) (lt_irrefl be)
        · intro _
          rw [htmax]
          exact le_trans (iv_le_iv.mpr hta) (le_max_left _ _)
        · intro h1
          exact absurd h1.symm (ne_of_lt hvr)
        · intro _ _ h3
          exact absurd (lt_of_le_of_lt hbz h3) (lt_irrefl be)
      · -- continue with raised alpha
        rw [if_neg hbr]
        dsimp only
        have hab2 : max al (iv z) < be := not_le.mp hbr
        have hzb : iv z < be := lt_of_le_of_lt (le_max_right _ _) hab2
        obtain ⟨ih1, ih2, ih3, ih4, ih5, ih6, ih7⟩ :=
          ih (iv z) (some a) (max al (iv z)) be (le_max_right _ _) hab2
        set R := maxLoop b child rest (iv z) (some a) (max al (iv z)) be with hR
        refine ⟨le_trans (le_of_lt hvr) ih1, ?_, ?_, ?_, ?_, ?_, ?_⟩
        · -- fail low at the node
          intro h1
          have hza : iv z ≤ al := le_trans ih1 h1
          have h2' := ih2 (by rw [max_eq_left hza]; exact h1)
          rw [htmax]
          exact max_le (le_trans (iv_le_iv.mpr (hlo hza)) ih1)
            (le_trans (tmax_mono t rest (le_of_lt hvr)) h2')
        · -- exact at the node
          intro h1 h2
          by_cases hcomp : max al (iv z) < R.1
          · have h3' := ih3 hcomp h2
            have hzR' : iv z < R.1 := lt_of_le_of_lt (le_max_right _ _) hcomp
            have hta : iv (t a) ≤ R.1 := by
              by_cases hza : iv z ≤ al
              · exact le_trans (iv_le_iv.mpr (hlo hza)) (le_of_lt hzR')
              · rw [← hex (not_le.mp hza) hzb]; exact le_of_lt hzR'
            have hRT : R.1 ≤ max (iv (t a)) (tmax t rest v) := by
              rcases tmax_cases t rest (iv z) with hcase | ⟨a2, ha2, hcase⟩
              · rw [hcase] at h3'
                exact absurd hzR' (by rw [h3']; exact lt_irrefl _)
              · calc R.1 = iv (t a2.1) := by rw [h3', hcase]
                  _ ≤ tmax t rest v := tmax_elem_le t ha2 v
                  _ ≤ _ := le_max_right _ _
            rw [htmax]
            exact le_antisymm hRT (max_le hta
              (le_trans (tmax_mono t rest (le_of_lt hvr)) (le_of_eq h3'.symm)))
          · have hR_le : R.1 ≤ max al (iv z) := not_lt.mp hcomp
            have hRz : R.1 = iv z := by
              rcases max_cases al (iv z) with ⟨hm, _⟩ | ⟨hm, _⟩
              · rw [hm] at hR_le
                exact absurd (lt_of_lt_of_le h1 hR_le) (lt_irrefl al)
              · rw [hm] at hR_le
                exact le_antisymm hR_le ih1
            have hzta : z = t a := hex (by rw [← hRz]; exact h1) (by rw [← hRz]; exact h2)
            have h2' := ih2 (by rw [hRz]; exact le_max_right _ _)
            have hrest : tmax t rest v ≤ R.1 :=
              le_trans (tmax_mono t rest (le_of_lt hvr)) h2'
            rw [htmax, ← hzta, ← hRz]
            exact (max_eq_left hrest).symm
        · -- fail high at the node
          intro h1
          have h4' := ih4 h1
          rcases tmax_cases t rest (iv z) with hcase | ⟨a2, ha2, hcase⟩
          · rw [hcase] at h4'
            exact absurd (lt_of_le_of_lt (le_trans h1 h4') hzb) (lt_irrefl be)
          · rw [htmax]
            calc R.1 ≤ iv (t a2.1) := by rw [← hcase]; exact h4'
              _ ≤ tmax t rest v := tmax_elem_le t ha2 v
              _ ≤ _ := le_max_right _ _
        · rcases ih5 with h5 | ⟨z2, h5⟩
          · exact Or.inr ⟨z, h5⟩
          · exact Or.inr ⟨z2, h5⟩
        · intro h6
          exact absurd h6.symm (ne_of_lt (lt_of_lt_of_le hvr ih1))
        · intro _ h7b h7c
          by_cases hcomp : max al (iv z) < R.1
          · exact ih7 (lt_of_le_of_lt (le_max_right _ _) hcomp) hcomp h7c
          · have hR_le : R.1 ≤ max al (iv z) := not_lt.mp hcomp
            have hRz : R.1 = iv z := by
              rcases max_cases al (iv z) with ⟨hm, _⟩ | ⟨hm, _⟩
              · rw [hm] at hR_le
                exact absurd (lt_of_lt_of_le h7b hR_le) (lt_irrefl al)
              · rw [hm] at hR_le
                exact le_antisymm hR_le ih1
            have hzta : z = t a :=
              hex (by rw [← hRz]; exact h7b) (by rw [← hRz]; exact h7c)
            exact ⟨a, ha, ih6 hRz, by rw [← hzta]; exact hRz.symm⟩
    · -- the child does not improve v
      rw [if_neg hvr]
      have hzv : iv z ≤ v := not_lt.mp hvr
      have hza : iv z ≤ al := le_trans hzv hva
      rw [max_eq_left hva, if_neg (not_le.mpr hab)]
      obtain ⟨ih1, ih2, ih3, ih4, ih5, ih6, ih7⟩ := ih v best al be hva hab
      have hT : tmax t (⟨a, ha⟩ :: rest) v = tmax t rest v := by
        rw [htmax]
        exact max_eq_right (le_trans (iv_le_iv.mpr (hlo hza))
          (le_trans hzv (tmax_base_le t rest v)))
      rw [MaxLoopPost, hT]
      exact ⟨ih1, ih2, ih3, ih4, ih5, ih6, ih7⟩

/-- What `minLoop` guarantees relative to the true remaining value
`tmin t todo v`; dual to `MaxLoopPost`. -/
def MinLoopPost (b : Board) (t : Move → ℤ)
    (todo : List {a : Move // a ∈ actions b}) (v : Val) (best : Option Move)
    (al be : Val) (R : Val × Option Move) : Prop :=
  R.1 ≤ v ∧
  (be ≤ R.1 → R.1 ≤ tmin t todo v) ∧
  (al < R.1 → R.1 < be → R.1 = tmin t todo v) ∧
  (R.1 ≤ al → tmin t todo v ≤ R.1) ∧
  (R.1 = v ∨ ∃ z : ℤ, R.1 = iv z) ∧
  (R.1 = v → R.2 = best) ∧
  (R.1 < v → al < R.1 → R.1 < be →
    ∃ a : Move, ∃ _h : a ∈ actions b, R.2 = some a ∧ iv (t a) = R.1)

theorem minLoop_km {b : Board} {t : Move → ℤ}
    {child : {a : Move // a ∈ actions b} → Val → Val → Val}
    (hc : ChildKM b t child) :
    ∀ (todo : List {a : Move // a ∈ actions b}) (v : Val) (best : Option Move)
      (al be : Val), be ≤ v → al < be →
      MinLoopPost b t todo v best al be (minLoop b child todo v best al be) := by
  intro todo
  induction todo with
  | nil =>
    intro v best al be hbv hab
    refine ⟨le_refl v, fun _ => le_refl v, fun _ _ => rfl, fun _ => le_refl v,
      Or.inl rfl, fun _ => rfl, fun h1 _ _ => absurd rfl (ne_of_lt h1)⟩
  | cons hd rest ih =>
    intro v best al be hbv hab
    obtain ⟨a, ha⟩ := hd
    obtain ⟨z, hz, hlo, hex, hhi⟩ := hc ⟨a, ha⟩ al be hab
    rw [minLoop, hz]
    have htmin : tmin t (⟨a, ha⟩ :: rest) v = min (iv (t a)) (tmin t rest v) := rfl
    by_cases hvr : iv z < v
    · rw [if_pos hvr]
      by_cases hbr : min be (iv z) ≤ al
      · -- prune: the child failed low
        rw [if_pos hbr]
        have hza : iv z ≤ al := by
          rcases min_cases be (iv z) with ⟨hm, _⟩ | ⟨hm, _⟩
          · rw [hm] at hbr; exact absurd (lt_of_lt_of_le hab hbr) (lt_irrefl al)
          · rw [hm] at hbr; exact hbr
        have hta : t a ≤ z := hlo hza
        refine ⟨le_of_lt hvr, ?_, ?_, ?_, Or.inr ⟨z, rfl⟩, ?_, ?_⟩
        · intro h1
          exact absurd (lt_of_lt_of_le hab (le_trans h1 hza)) (lt_irrefl al)
        · intro h1 _
          exact absurd (lt_of_le_of_lt hza h1) (lt_irrefl _)
        · intro _
          rw [htmin]
          exact le_trans (min_le_left _ _) (iv_le_iv.mpr hta)
        · intro h1
          exact absurd h1 (ne_of_lt hvr)
        · intro _ h2 _
          exact absurd (lt_of_le_of_lt hza h2) (lt_irrefl _)
      · -- continue with lowered beta
        rw [if_neg hbr]
        dsimp only
        have hab2 : al < min be (iv z) := not_le.mp hbr
        have haz : al < iv z := lt_of_lt_of_le hab2 (min_le_right _ _)
        obtain ⟨ih1, ih2, ih3, ih4, ih5, ih6, ih7⟩ :=
          ih (iv z) (some a) al (min be (iv z)) (min_le_right _ _) hab2
        set R := minLoop b child rest (iv z) (some a) al (min be (iv z)) with hR
        refine ⟨le_trans ih1 (le_of_lt hvr), ?_, ?_, ?_, ?_, ?_, ?_⟩
        · -- fail high at the node
          intro h1
          have hzb : be ≤ iv z := le_trans h1 ih1
          have h2' := ih2 (by rw [min_eq_left hzb]; exact h1)
          rw [htmin]
          exact le_min (le_trans ih1 (iv_le_iv.mpr (hhi hzb)))
            (le_trans h2' (tmin_mono t rest (le_of_lt hvr)))
        · -- exact at the node
          intro h1 h2
          by_cases hcomp : R.1 < min be (iv z)
          · have h3' := ih3 h1 hcomp
            have hzR' : R.1 < iv z := lt_of_lt_of_le hcomp (min_le_right _ _)
            have hta : R.1 ≤ iv (t a) := by
              by_cases hza : be ≤ iv z
              · exact le_trans (le_of_lt hzR') (iv_le_iv.mpr (hhi hza))
              · rw [← hex haz (not_le.mp hza)]; exact le_of_lt hzR'
            have hRT : min (iv (t a)) (tmin t rest v) ≤ R.1 := by
              rcases tmin_cases t rest (iv z) with hcase | ⟨a2, ha2, hcase⟩
              · rw [hcase] at h3'
                exact absurd hzR' (by rw [h3']; exact lt_irrefl _)
              · calc min (iv (t a)) (tmin t rest v) ≤ tmin t rest v :=
                    min_le_right _ _
                  _ ≤ iv (t a2.1) := tmin_le_elem t ha2 v
                  _ = R.1 := by rw [← hcase, ← h3']
            rw [htmin]
            exact le_antisymm (le_min hta
              (le_trans (le_of_eq h3') (tmin_mono t rest (le_of_lt hvr)))) hRT
          · have hR_ge : min be (iv z) ≤ R.1 := not_lt.mp hcomp
            have hRz : R.1 = iv z := by
              rcases min_cases be (iv z) with ⟨hm, _⟩ | ⟨hm, _⟩
              · rw [hm] at hR_ge
                exact absurd (lt_of_le_of_lt hR_ge h2) (lt_irrefl be)
              · rw [hm] at hR_ge
                exact le_antisymm ih1 hR_ge
            have hzta : z = t a := hex (by rw [← hRz]; exact h1) (by rw [← hRz]; exact h2)
            have h2' := ih2 (by rw [hRz]; exact min_le_right _ _)
            have hrest : R.1 ≤ tmin t rest v :=
              le_trans h2' (tmin_mono t rest (le_of_lt hvr))
            rw [htmin, ← hzta, ← hRz]
            exact (min_eq_left hrest).symm
        · -- fail low at the node
          intro h1
          have h4' := ih4 h1
          rcases tmin_cases t rest (iv z) with hcase | ⟨a2, ha2, hcase⟩
          · rw [hcase] at h4'
            exact absurd (lt_of_lt_of_le haz (le_trans h4' h1)) (lt_irrefl al)
          · rw [htmin]
            calc min (iv (t a)) (tmin t rest v) ≤ tmin t rest v := min_le_right _ _
              _ ≤ iv (t a2.1) := tmin_le_elem t ha2 v
              _ ≤ R.1 := by rw [← hcase]; exact h4'
        · rcases ih5 with h5 | ⟨z2, h5⟩
          · exact Or.inr ⟨z, h5⟩
          · exact Or.inr ⟨z2, h5⟩
        · intro h6
          exact absurd h6 (ne_of_lt (lt_of_le_of_lt ih1 hvr))
        · intro _ h7b h7c
          by_cases hcomp : R.1 < min be (iv z)
          · exact ih7 (lt_of_lt_of_le hcomp (min_le_right _ _)) h7b hcomp
          · have hR_ge : min be (iv z) ≤ R.1 := not_lt.mp hcomp
            have hRz : R.1 = iv z := by
              rcases min_cases be (iv z) with ⟨hm, _⟩ | ⟨hm, _⟩
              · rw [hm] at hR_ge
                exact absurd (lt_of_le_of_lt hR_ge h7c) (lt_irrefl be)
              · rw [hm] at hR_ge
                exact le_antisymm ih1 hR_ge
            have hzta : z = t a :=
              hex (by rw [← hRz]; exact h7b) (by rw [← hRz]; exact h7c)
            exact ⟨a, ha, ih6 hRz, by rw [← hzta]; exact hRz.symm⟩
    · -- the child does not improve v
      rw [if_neg hvr]
      have hzv : v ≤ iv z := not_lt.mp hvr
      have hzb : be ≤ iv z := le_trans hbv hzv
      rw [min_eq_left hbv, if_neg (not_le.mpr hab)]
      obtain ⟨ih1, ih2, ih3, ih4, ih5, ih6, ih7⟩ := ih v best al be hbv hab
      have hT : tmin t (⟨a, ha⟩ :: rest) v = tmin t rest v := by
        rw [htmin]
        exact min_eq_right (le_trans (tmin_le_base t rest v)
          (le_trans hzv (iv_le_iv.mpr (hhi hzb))))
      rw [MinLoopPost, hT]
      exact ⟨ih1, ih2, ih3, ih4, ih5, ih6, ih7⟩

theorem attach_ne_nil {l : List Move} (h : l ≠ []) : l.attach ≠ [] := by
  intro hnil
  have hlen := congrArg List.length hnil
  simp only [List.length_attach, List.length_nil] at hlen
  exact h (List.length_eq_zero.mp hlen)

theorem tmax_attach_bot {b : Board} (t : Move → ℤ) :
    ∀ (l : List {a : Move // a ∈ actions b}), l ≠ [] →
      tmax t l ⊥ = iv (intListMax (l.map fun a => t a.1)) := by
  intro l
  induction l with
  | nil => intro h; exact absurd rfl h
  | cons x xs ih =>
    intro _
    match xs with
    | [] =>
      show max (iv (t x.1)) ⊥ = iv (intListMax [t x.1])
      rw [max_eq_left bot_le]
      rfl
    | y :: rest =>
      have hx := ih (by simp)
      show max (iv (t x.1)) (tmax t (y :: rest) ⊥) = _
      rw [hx, max_iv]
      rfl

theorem tmin_attach_top {b : Board} (t : Move → ℤ) :
    ∀ (l : List {a : Move // a ∈ actions b}), l ≠ [] →
      tmin t l ⊤ = iv (intListMin (l.map fun a => t a.1)) := by
  intro l
  induction l with
  | nil => intro h; exact absurd rfl h
  | cons x xs ih =>
    intro _
    match xs with
    | [] =>
      show min (iv (t x.1)) ⊤ = iv (intListMin [t x.1])
      rw [min_eq_left le_top]
      rfl
    | y :: rest =>
      have hx := ih (by simp)
      show min (iv (t x.1)) (tmin t (y :: rest) ⊤) = _
      rw [hx, min_iv]
      rfl

/-- Knuth-Moore contract of a `maximizing_action` call: the value is finite,
exact inside the window `(al, be)`, an upper bound on `maxValue` when it
fails low, a lower bound when it fails high; in the exact case the returned
action is a legal action realising the value (on non-terminal boards). -/
def KMmax (b : Board) : Prop :=
  ∀ (al be : Val), al < be →
    ∃ z : ℤ, (maximizing_action b al be).1 = iv z ∧
      (iv z ≤ al → maxValue b ≤ z) ∧
      (al < iv z → iv z < be → z = maxValue b ∧ (terminal b = false →
        ∃ a : Move, ∃ _h : a ∈ actions b,
          (maximizing_action b al be).2 = some a ∧ minValue (resultB b a) = z)) ∧
      (be ≤ iv z → z ≤ maxValue b)

/-- Dual contract of a `minimizing_action` call. -/
def KMmin (b : Board) : Prop :=
  ∀ (al be : Val), al < be →
    ∃ z : ℤ, (minimizing_action b al be).1 = iv z ∧
      (iv z ≤ al → minValue b ≤ z) ∧
      (al < iv z → iv z < be → z = minValue b ∧ (terminal b = false →
        ∃ a : Move, ∃ _h : a ∈ actions b,
          (minimizing_action b al be).2 = some a ∧ maxValue (resultB b a) = z)) ∧
      (be ≤ iv z → z ≤ minValue b)

theorem km_terminal {b : Board} (h : terminal b = true) : KMmax b ∧ KMmin b := by
  constructor
  · intro al be _
    rw [maximizing_action, if_pos h]
    refine ⟨utility b, rfl, fun _ => le_of_eq (maxValue_terminal h), fun _ _ => ?_,
      fun _ => le_of_eq (maxValue_terminal h).symm⟩
    exact ⟨(maxValue_terminal h).symm, fun hf => by rw [h] at hf; exact absurd hf (by simp)⟩
  · intro al be _
    rw [minimizing_action, if_pos h]
    refine ⟨utility b, rfl, fun _ => le_of_eq (minValue_terminal h), fun _ _ => ?_,
      fun _ => le_of_eq (minValue_terminal h).symm⟩
    exact ⟨(minValue_terminal h).symm, fun hf => by rw [h] at hf; exact absurd hf (by simp)⟩

theorem km_nodes : ∀ (n : Nat) (b : Board), countEmpty b ≤ n → KMmax b ∧ KMmin b := by
  intro n
  induction n with
  | zero =>
    intro b hn
    exact km_terminal (terminal_of_countEmpty_zero (Nat.le_zero.mp hn))
  | succ n ih =>
    intro b hn
    by_cases hterm : terminal b = true
    · exact km_terminal hterm
    · rw [Bool.not_eq_true] at hterm
      have hchildn : ∀ a : Move, a ∈ actions b → countEmpty (resultB b a) ≤ n := by
        intro a ha
        have := countEmpty_resultB ha
        omega
      have hne : (actions b).attach ≠ [] := attach_ne_nil (actions_ne_nil hterm)
      constructor
      · -- maximizing node
        have hc : ChildKM b (fun m => minValue (resultB b m))
            (fun a al be => (minimizing_action (resultB b a.1) al be).1) := by
          intro a al be hab
          obtain ⟨z, hz, hlo, hex, hhi⟩ :=
            ((ih (resultB b a.1) (hchildn a.1 a.2)).2) al be hab
          exact ⟨z, hz, hlo, fun h1 h2 => (hex h1 h2).1, hhi⟩
        intro al be hab
        rw [maximizing_action, if_neg (by simp [hterm])]
        obtain ⟨p1, p2, p3, p4, p5, p6, p7⟩ :=
          maxLoop_km hc (actions b).attach ⊥ none al be bot_le hab
        set R := maxLoop b
          (fun a al be => (minimizing_action (resultB b a.1) al be).1)
          (actions b).attach ⊥ none al be with hR
        have htv : tmax (fun m => minValue (resultB b m)) (actions b).attach ⊥
            = iv (maxValue b) := by
          rw [tmax_attach_bot _ _ hne, maxValue_eq hterm]
        rcases p5 with hbot | ⟨z, hz⟩
        · have := p2 (le_of_eq hbot |>.trans bot_le)
          rw [htv, hbot] at this
          exact absurd (lt_of_lt_of_le (bot_lt_iv (maxValue b)) this)
            (lt_irrefl (⊥ : Val))
        · refine ⟨z, hz, ?_, ?_, ?_⟩
          · intro h1
            have := p2 (by rw [hz]; exact h1)
            rw [htv, hz] at this
            exact iv_le_iv.mp this
          · intro h1 h2
            have h3 := p3 (by rw [hz]; exact h1) (by rw [hz]; exact h2)
            rw [htv, hz] at h3
            refine ⟨iv_inj.mp h3, fun _ => ?_⟩
            have h7 := p7 (by rw [hz]; exact bot_lt_iv z)
              (by rw [hz]; exact h1) (by rw [hz]; exact h2)
            obtain ⟨a, ha, hsome, hval⟩ := h7
            rw [hz] at hval
            exact ⟨a, ha, hsome, iv_inj.mp hval⟩
          · intro h1
            have := p4 (by rw [hz]; exact h1)
            rw [htv, hz] at this
            exact iv_le_iv.mp this
      · -- minimizing node
        have hc : ChildKM b (fun m => maxValue (resultB b m))
            (fun a al be => (maximizing_action (resultB b a.1) al be).1) := by
          intro a al be hab
          obtain ⟨z, hz, hlo, hex, hhi⟩ :=
            ((ih (resultB b a.1) (hchildn a.1 a.2)).1) al be hab
          exact ⟨z, hz, hlo, fun h1 h2 => (hex h1 h2).1, hhi⟩
        intro al be hab
        rw [minimizing_action, if_neg (by simp [hterm])]
        obtain ⟨p1, p2, p3, p4, p5, p6, p7⟩ :=
          minLoop_km hc (actions b).attach ⊤ none al be le_top hab
        set R := minLoop b
          (fun a al be => (maximizing_action (resultB b a.1) al be).1)
          (actions b).attach ⊤ none al be with hR
        have htv : tmin (fun m => maxValue (resultB b m)) (actions b).attach ⊤
            = iv (minValue b) := by
          rw [tmin_attach_top _ _ hne, minValue_eq hterm]
        rcases p5 with htop | ⟨z, hz⟩
        · have := p2 (le_top.trans (le_of_eq htop.symm))
          rw [htv, htop] at this
          exact absurd (lt_of_le_of_lt this (iv_lt_top (minValue b)))
            (lt_irrefl (⊤ : Val))
        · refine ⟨z, hz, ?_, ?_, ?_⟩
          · intro h1
            have := p4 (by rw [hz]; exact h1)
            rw [htv, hz] at this
            exact iv_le_iv.mp this
          · intro h1 h2
            have h3 := p3 (by rw [hz]; exact h1) (by rw [hz]; exact h2)
            rw [htv, hz] at h3
            refine ⟨iv_inj.mp h3, fun _ => ?_⟩
            have h7 := p7 (by rw [hz]; exact iv_lt_top z)
              (by rw [hz]; exact h1) (by rw [hz]; exact h2)
            obtain ⟨a, ha, hsome, hval⟩ := h7
            rw [hz] at hval
            exact ⟨a, ha, hsome, iv_inj.mp hval⟩
          · intro h1
            have := p2 (by rw [hz]; exact h1)
            rw [htv, hz] at this
            exact iv_le_iv.mp this

/-- Root-window corollary: with `alpha = -inf`, `beta = +inf` the
maximizing search returns exactly the game value, and on a non-terminal
board an optimal legal action realising it. -/
theorem maximizing_root (b : Board) :
    (maximizing_action b ⊥ ⊤).1 = iv (maxValue b) ∧
    (terminal b = false → ∃ a : Move, ∃ _h : a ∈ actions b,
      (maximizing_action b ⊥ ⊤).2 = some a ∧ minValue (resultB b a) = maxValue b) := by
  obtain ⟨z, hz, _, hex, _⟩ :=
    (km_nodes (countEmpty b) b (le_refl _)).1 ⊥ ⊤ bot_lt_top_val
  obtain ⟨hval, hact⟩ := hex (bot_lt_iv z) (iv_lt_top z)
  subst hval
  exact ⟨hz, fun hf => by
    obtain ⟨a, ha, hsome, hres⟩ := hact hf
    exact ⟨a, ha, hsome, hres⟩⟩

/-- Root-window corollary for the minimizing search. -/
theorem minimizing_root (b : Board) :
    (minimizing_action b ⊥ ⊤).1 = iv (minValue b) ∧
    (terminal b = false → ∃ a : Move, ∃ _h : a ∈ actions b,
      (minimizing_action b ⊥ ⊤).2 = some a ∧ maxValue (resultB b a) = minValue b) := by
  obtain ⟨z, hz, _, hex, _⟩ :=
    (km_nodes (countEmpty b) b (le_refl _)).2 ⊥ ⊤ bot_lt_top_val
  obtain ⟨hval, hact⟩ := hex (bot_lt_iv z) (iv_lt_top z)
  subst hval
  exact ⟨hz, fun hf => by
    obtain ⟨a, ha, hsome, hres⟩ := hact hf
    exact ⟨a, ha, hsome, hres⟩⟩

theorem result_ok {b : Board} {a : Move} (ha : a ∈ actions b) :
    result b a = Except.ok (resultB b a) := by
  unfold result
  rw [if_pos ha]
  rcases player_cases (not_terminal_of_mem_actions ha) with hp | hp <;> rw [hp]

theorem result_ok_inv {b b2 : Board} {a : Move}
    (h : result b a = Except.ok b2) : a ∈ actions b ∧ b2 = resultB b a := by
  unfold result at h
  by_cases ha : a ∈ actions b
  · rw [if_pos ha] at h
    rcases player_cases (not_terminal_of_mem_actions ha) with hp | hp <;>
      rw [hp] at h <;> exact ⟨ha, (Except.ok.injEq .. ▸ h :).symm⟩
  · rw [if_neg ha] at h
    exact absurd h (by simp)

/-- On a non-terminal, non-initial board, `minimax` returns an optimal legal
action: a move whose successor value equals the game value of the board. -/
theorem minimax_opt (pick : List Move → Option Move) {b : Board}
    (hterm : terminal b = false) (hinit : b ≠ initial_state) :
    (player b = some Cell.X → ∃ a : Move, ∃ _h : a ∈ actions b,
      minimax pick b = some a ∧ minValue (resultB b a) = maxValue b) ∧
    (player b = some Cell.O → ∃ a : Move, ∃ _h : a ∈ actions b,
      minimax pick b = some a ∧ maxValue (resultB b a) = minValue b) := by
  constructor
  · intro hp
    obtain ⟨a, ha, hsome, hres⟩ := (maximizing_root b).2 hterm
    refine ⟨a, ha, ?_, hres⟩
    rw [minimax, if_neg (by simp [hterm]), if_neg hinit, hp]
    exact hsome
  · intro hp
    obtain ⟨a, ha, hsome, hres⟩ := (minimizing_root b).2 hterm
    refine ⟨a, ha, ?_, hres⟩
    rw [minimax, if_neg (by simp [hterm]), if_neg hinit, hp]
    exact hsome

/-- The draw-preservation invariant: from a non-initial board whose value
for the side to move is `0` (or which is already a drawn terminal board),
self-play through `minimax` ends in a terminal board of utility `0`. -/
theorem selfPlay_draw : ∀ (n : Nat) (pick : List Move → Option Move) (b : Board),
    countEmpty b ≤ n → b ≠ initial_state →
    ((terminal b = true ∧ utility b = 0) ∨
     (terminal b = false ∧ countX b = countO b ∧ maxValue b = 0) ∨
     (terminal b = false ∧ countX b = countO b + 1 ∧ minValue b = 0)) →
    terminal (selfPlay pick n b) = true ∧ utility (selfPlay pick n b) = 0 := by
  intro n
  induction n with
  | zero =>
    intro pick b hn hinit hinv
    have hterm : terminal b = true := terminal_of_countEmpty_zero (Nat.le_zero.mp hn)
    rcases hinv with ⟨_, hu⟩ | ⟨ht, _, _⟩ | ⟨ht, _, _⟩
    · exact ⟨hterm, hu⟩
    · rw [ht] at hterm; exact absurd hterm (by simp)
    · rw [ht] at hterm; exact absurd hterm (by simp)
  | succ n ihn =>
    intro pick b hn hinit hinv
    rcases hinv with ⟨ht, hu⟩ | ⟨ht, hcnt, hv⟩ | ⟨ht, hcnt, hv⟩
    · rw [selfPlay, if_pos ht]
      exact ⟨ht, hu⟩
    · -- X to move with maxValue 0
      have hp : player b = some Cell.X := player_X_of_counts ht (le_of_eq hcnt)
      obtain ⟨a, ha, hmm, hval⟩ := (minimax_opt pick ht hinit).1 hp
      have hstep : selfPlay pick (n + 1) b = selfPlay pick n (resultB b a) := by
        rw [selfPlay, if_neg (by simp [ht]), hmm]
        dsimp only
        rw [result_ok ha]
      rw [hstep]
      have hcnt2 := counts_resultB_X ha hp
      have hemp := countEmpty_resultB ha
      have hc_init : resultB b a ≠ initial_state := by
        intro he
        have := congrArg countX he
        rw [countX_initial] at this
        omega
      apply ihn pick (resultB b a) (by omega) hc_init
      by_cases htc : terminal (resultB b a) = true
      · left
        refine ⟨htc, ?_⟩
        rw [← minValue_terminal htc, hval, hv]
      · rw [Bool.not_eq_true] at htc
        right; right
        exact ⟨htc, by omega, by rw [hval, hv]⟩
    · -- O to move with minValue 0
      have hp : player b = some Cell.O := player_O_of_counts ht (by omega)
      obtain ⟨a, ha, hmm, hval⟩ := (minimax_opt pick ht hinit).2 hp
      have hstep : selfPlay pick (n + 1) b = selfPlay pick n (resultB b a) := by
        rw [selfPlay, if_neg (by simp [ht]), hmm]
        dsimp only
        rw [result_ok ha]
      rw [hstep]
      have hcnt2 := counts_resultB_O ha hp
      have hemp := countEmpty_resultB ha
      have hc_init : resultB b a ≠ initial_state := by
        intro he
        have := congrArg countX he
        rw [countX_initial] at this
        omega
      apply ihn pick (resultB b a) (by omega) hc_init
      by_cases htc : terminal (resultB b a) = true
      · left
        refine ⟨htc, ?_⟩
        rw [← maxValue_terminal htc, hval, hv]
      · rw [Bool.not_eq_true] at htc
        right; left
        exact ⟨htc, by omega, by rw [hval, hv]⟩

end TicTacToe

namespace TicTacToe

theorem firstXO_ne_none : ∀ (L : List (List Cell)),
    firstXO L ≠ none ↔
      ∃ l ∈ L, (l.all fun c => c == Cell.X) = true ∨
        (l.all fun c => c == Cell.O) = true := by
  intro L
  induction L with
  | nil => simp [firstXO]
  | cons l rest ih =>
    rw [firstXO]
    by_cases hx : (l.all fun c => c == Cell.X) = true
    · rw [if_pos hx]
      exact iff_of_true (by simp) ⟨l, List.mem_cons_self .., Or.inl hx⟩
    · by_cases ho : (l.all fun c => c == Cell.O) = true
      · rw [if_neg hx, if_pos ho]
        exact iff_of_true (by simp) ⟨l, List.mem_cons_self .., Or.inr ho⟩
      · rw [if_neg hx, if_neg ho, ih]
        constructor
        · rintro ⟨l2, hl2, h2⟩
          exact ⟨l2, List.mem_cons_of_mem _ hl2, h2⟩
        · rintro ⟨l2, hl2, h2⟩
          rcases List.mem_cons.mp hl2 with rfl | hl3
          · rcases h2 with h2 | h2
            · exact absurd h2 hx
            · exact absurd h2 ho
          · exact ⟨l2, hl3, h2⟩

theorem uniformF_iff (x y z : Cell) :
    uniformF x y z = true ↔
      ((x = Cell.X ∧ y = Cell.X ∧ z = Cell.X) ∨
       (x = Cell.O ∧ y = Cell.O ∧ z = Cell.O)) := by
  revert x y z
  decide

theorem occ_iff (v : Cell) : occ v = true ↔ v ≠ Cell.Empty := by
  revert v
  decide

theorem result_error_iff {b : Board} {a : Move} :
    (∃ e, result b a = Except.error e) ↔ a ∉ actions b := by
  constructor
  · rintro ⟨e, he⟩ ha
    rw [result_ok ha] at he
    exact absurd he (by simp)
  · intro ha
    unfold result
    rw [if_neg ha]
    exact ⟨"Impossible move detected", rfl⟩

theorem not_mem_actions_iff {b : Board} (h : Wf3 b) (a : Move) :
    a ∉ actions b ↔
      (¬(a.1 < 3 ∧ a.2 < 3) ∨
       (∃ row c, b[a.1]? = some row ∧ row[a.2]? = some c ∧ c ≠ Cell.Empty) ∨
       terminal b = true) := by
  constructor
  · intro ha
    by_cases hterm : terminal b = true
    · exact Or.inr (Or.inr hterm)
    · rw [Bool.not_eq_true] at hterm
      by_cases hbound : a.1 < 3 ∧ a.2 < 3
      · refine Or.inr (Or.inl ?_)
        have h1 : a.1 < b.length := by rw [h.1]; exact hbound.1
        have hrow : b[a.1]? = some b[a.1] := List.getElem?_eq_getElem h1
        have hmem : b[a.1] ∈ b := List.getElem?_mem hrow
        have h2 : a.2 < (b[a.1]).length := by rw [h.2 _ hmem]; exact hbound.2
        have hcell : (b[a.1])[a.2]? = some (b[a.1])[a.2] := List.getElem?_eq_getElem h2
        refine ⟨b[a.1], (b[a.1])[a.2], hrow, hcell, fun he => ?_⟩
        exact ha (actions_mem.mpr ⟨hterm, b[a.1], hrow, by rw [hcell, he]⟩)
      · exact Or.inl hbound
  · intro hdis ha
    obtain ⟨hterm, row, hrow, hcell⟩ := actions_mem.mp ha
    rcases hdis with hb | ⟨row2, c2, hrow2, hcell2, hne⟩ | ht
    · apply hb
      constructor
      · have := (List.getElem?_eq_some.mp hrow).1
        rw [h.1] at this
        exact this
      · have hm : row ∈ b := List.getElem?_mem hrow
        have := (List.getElem?_eq_some.mp hcell).1
        rw [h.2 _ hm] at this
        exact this
    · rw [hrow2] at hrow
      injection hrow with hr
      subst hr
      rw [hcell2] at hcell
      injection hcell with hc
      exact hne hc
    · rw [ht] at hterm
      exact absurd hterm (by simp)

/-- Claim C1: on every reachable non-terminal board other than the initial
board, `minimax` returns a legal action that is optimal for the current
player — no alternative legal action has a strictly better guaranteed
value under optimal opposing play — and the value component of the
alpha-beta search invoked with the full window `alpha = -inf`,
`beta = +inf` equals the game-theoretic value of the position, so the
`beta <= alpha` pruning never changes the root value. -/
theorem claim_C1 (pick : List Move → Option Move) (b : Board)
    (_hreach : Reachable b) (hterm : terminal b = false)
    (hinit : b ≠ initial_state) :
    ∃ a : Move, minimax pick b = some a ∧ a ∈ actions b ∧
      (player b = some Cell.X →
        minValue (resultB b a) = maxValue b ∧
        (∀ a2 ∈ actions b, minValue (resultB b a2) ≤ minValue (resultB b a)) ∧
        (maximizing_action b ⊥ ⊤).1 = iv (maxValue b)) ∧
      (player b = some Cell.O →
        maxValue (resultB b a) = minValue b ∧
        (∀ a2 ∈ actions b, maxValue (resultB b a) ≤ maxValue (resultB b a2)) ∧
        (minimizing_action b ⊥ ⊤).1 = iv (minValue b)) := by
  rcases player_cases hterm with hp | hp
  · obtain ⟨a, ha, hmm, hres⟩ := (minimax_opt pick hterm hinit).1 hp
    refine ⟨a, hmm, ha, fun _ => ⟨hres, ?_, (maximizing_root b).1⟩,
      fun hpo => ?_⟩
    · intro a2 ha2
      rw [hres, maxValue_eq hterm]
      exact le_intListMax_of_mem (minValue_child_mem ha2)
    · rw [hp] at hpo
      exact absurd hpo (by simp)
  · obtain ⟨a, ha, hmm, hres⟩ := (minimax_opt pick hterm hinit).2 hp
    refine ⟨a, hmm, ha, fun hpx => ?_,
      fun _ => ⟨hres, ?_, (minimizing_root b).1⟩⟩
    · rw [hp] at hpx
      exact absurd hpx (by simp)
    · intro a2 ha2
      rw [hres, minValue_eq hterm]
      exact intListMin_le_of_mem (maxValue_child_mem ha2)

/-- Witness for claim C1 at the reachable board with a single `X` in the
top-left corner, with the deterministic head picker. -/
theorem claim_C1_witness :
    ∃ a : Move,
      minimax (fun l => l.head?)
        [[Cell.X, Cell.Empty, Cell.Empty],
         [Cell.Empty, Cell.Empty, Cell.Empty],
         [Cell.Empty, Cell.Empty, Cell.Empty]] = some a ∧
      a ∈ actions
        [[Cell.X, Cell.Empty, Cell.Empty],
         [Cell.Empty, Cell.Empty, Cell.Empty],
         [Cell.Empty, Cell.Empty, Cell.Empty]] ∧
      (player
          [[Cell.X, Cell.Empty, Cell.Empty],
           [Cell.Empty, Cell.Empty, Cell.Empty],
           [Cell.Empty, Cell.Empty, Cell.Empty]] = some Cell.X →
        minValue (resultB
            [[Cell.X, Cell.Empty, Cell.Empty],
             [Cell.Empty, Cell.Empty, Cell.Empty],
             [Cell.Empty, Cell.Empty, Cell.Empty]] a) = maxValue
            [[Cell.X, Cell.Empty, Cell.Empty],
             [Cell.Empty, Cell.Empty, Cell.Empty],
             [Cell.Empty, Cell.Empty, Cell.Empty]] ∧
        (∀ a2 ∈ actions
            [[Cell.X, Cell.Empty, Cell.Empty],
             [Cell.Empty, Cell.Empty, Cell.Empty],
             [Cell.Empty, Cell.Empty, Cell.Empty]],
          minValue (resultB
              [[Cell.X, Cell.Empty, Cell.Empty],
               [Cell.Empty, Cell.Empty, Cell.Empty],
               [Cell.Empty, Cell.Empty, Cell.Empty]] a2) ≤
            minValue (resultB
              [[Cell.X, Cell.Empty, Cell.Empty],
               [Cell.Empty, Cell.Empty, Cell.Empty],
               [Cell.Empty, Cell.Empty, Cell.Empty]] a)) ∧
        (maximizing_action
            [[Cell.X, Cell.Empty, Cell.Empty],
             [Cell.Empty, Cell.Empty, Cell.Empty],
             [Cell.Empty, Cell.Empty, Cell.Empty]] ⊥ ⊤).1 = iv (maxValue
            [[Cell.X, Cell.Empty, Cell.Empty],
             [Cell.Empty, Cell.Empty, Cell.Empty],
             [Cell.Empty, Cell.Empty, Cell.Empty]])) ∧
      (player
          [[Cell.X, Cell.Empty, Cell.Empty],
           [Cell.Empty, Cell.Empty, Cell.Empty],
           [Cell.Empty, Cell.Empty, Cell.Empty]] = some Cell.O →
        maxValue (resultB
            [[Cell.X, Cell.Empty, Cell.Empty],
             [Cell.Empty, Cell.Empty, Cell.Empty],
             [Cell.Empty, Cell.Empty, Cell.Empty]] a) = minValue
            [[Cell.X, Cell.Empty, Cell.Empty],
             [Cell.Empty, Cell.Empty, Cell.Empty],
             [Cell.Empty, Cell.Empty, Cell.Empty]] ∧
        (∀ a2 ∈ actions
            [[Cell.X, Cell.Empty, Cell.Empty],
             [Cell.Empty, Cell.Empty, Cell.Empty],
             [Cell.Empty, Cell.Empty, Cell.Empty]],
          maxValue (resultB
              [[Cell.X, Cell.Empty, Cell.Empty],
               [Cell.Empty, Cell.Empty, Cell.Empty],
               [Cell.Empty, Cell.Empty, Cell.Empty]] a) ≤
            maxValue (resultB
              [[Cell.X, Cell.Empty, Cell.Empty],
               [Cell.Empty, Cell.Empty, Cell.Empty],
               [Cell.Empty, Cell.Empty, Cell.Empty]] a2)) ∧
        (minimizing_action
            [[Cell.X, Cell.Empty, Cell.Empty],
             [Cell.Empty, Cell.Empty, Cell.Empty],
             [Cell.Empty, Cell.Empty, Cell.Empty]] ⊥ ⊤).1 = iv (minValue
            [[Cell.X, Cell.Empty, Cell.Empty],
             [Cell.Empty, Cell.Empty, Cell.Empty],
             [Cell.Empty, Cell.Empty, Cell.Empty]])) :=
  claim_C1 (fun l => l.head?) _
    (Reachable.step Reachable.init
      (show ((0, 0) : Move) ∈ actions initial_state by decide) rfl)
    (by decide) (by decide)

end TicTacToe

namespace TicTacToe

/-- Counterexample to claim C3 as stated: on the board
`[[X,O,X],[O,X,O],[E,E,E]]` the move `(2,0)` is legal and there are three
legal moves, but the resulting board is a win for `X`, so it is terminal
and has zero legal moves rather than two. -/
theorem claim_C3_cex :
    ((2, 0) : Move) ∈ actions
      [[Cell.X, Cell.O, Cell.X],
       [Cell.O, Cell.X, Cell.O],
       [Cell.Empty, Cell.Empty, Cell.Empty]] ∧
    result
      [[Cell.X, Cell.O, Cell.X],
       [Cell.O, Cell.X, Cell.O],
       [Cell.Empty, Cell.Empty, Cell.Empty]] (2, 0) =
      Except.ok
        [[Cell.X, Cell.O, Cell.X],
         [Cell.O, Cell.X, Cell.O],
         [Cell.X, Cell.Empty, Cell.Empty]] ∧
    (actions
        [[Cell.X, Cell.O, Cell.X],
         [Cell.O, Cell.X, Cell.O],
         [Cell.X, Cell.Empty, Cell.Empty]]).length + 1 ≠
      (actions
        [[Cell.X, Cell.O, Cell.X],
         [Cell.O, Cell.X, Cell.O],
         [Cell.Empty, Cell.Empty, Cell.Empty]]).length :=
  ⟨by decide, rfl, by decide⟩

/-- Claim C3 (amended): for every board `B` and legal move `m` whose
resulting board is not terminal, `actions(result(B, m))` has exactly one
fewer element than `actions(B)`.  (If the move ends the game the resulting
board has no legal actions at all, so the original claim fails.) -/
theorem claim_C3 (b b2 : Board) (m : Move) (hm : m ∈ actions b)
    (hr : result b m = Except.ok b2) (ht2 : terminal b2 = false) :
    (actions b2).length + 1 = (actions b).length := by
  obtain ⟨_, rfl⟩ := result_ok_inv hr
  rw [actions_length ht2, actions_length (not_terminal_of_mem_actions hm)]
  exact countEmpty_resultB hm

/-- Witness for claim C3: the opening corner move on the initial board. -/
theorem claim_C3_witness :
    (actions
        [[Cell.X, Cell.Empty, Cell.Empty],
         [Cell.Empty, Cell.Empty, Cell.Empty],
         [Cell.Empty, Cell.Empty, Cell.Empty]]).length + 1 =
      (actions initial_state).length :=
  claim_C3 initial_state _ (0, 0) (by decide) rfl (by decide)

/-- Claim C4: on every well-formed 3x3 board, `terminal` is true exactly
when `winner` is non-none or every cell is occupied. -/
theorem claim_C4 (b : Board) (h : Wf3 b) :
    terminal b = true ↔
      (winner b ≠ none ∨ ∀ row ∈ b, ∀ c ∈ row, c ≠ Cell.Empty) := by
  obtain ⟨a, b2, c, d, e, f, g, h2, i, rfl⟩ := wf3_shape h
  rw [terminalC_eq, winner, allLines_explicit, firstXO_ne_none]
  simp only [terminalC, Bool.or_eq_true, Bool.and_eq_true, uniformF_iff, occ_iff,
    List.exists_mem_cons_iff, List.not_mem_nil, false_and, exists_false, or_false,
    List.all_cons, List.all_nil, Bool.and_true, beq_iff_eq, and_true,
    List.forall_mem_cons, List.forall_mem_nil, true_and,
    List.mem_cons, List.mem_singleton, exists_eq_or_imp, exists_eq_left,
    forall_eq_or_imp, forall_eq, or_assoc, and_assoc]

/-- Witness for claim C4 at a board won by `X` on the top row. -/
theorem claim_C4_witness :
    Wf3
      [[Cell.X, Cell.X, Cell.X],
       [Cell.O, Cell.O, Cell.Empty],
       [Cell.Empty, Cell.Empty, Cell.Empty]] ∧
    (terminal
        [[Cell.X, Cell.X, Cell.X],
         [Cell.O, Cell.O, Cell.Empty],
         [Cell.Empty, Cell.Empty, Cell.Empty]] = true ↔
      (winner
          [[Cell.X, Cell.X, Cell.X],
           [Cell.O, Cell.O, Cell.Empty],
           [Cell.Empty, Cell.Empty, Cell.Empty]] ≠ none ∨
       ∀ row ∈
          [[Cell.X, Cell.X, Cell.X],
           [Cell.O, Cell.O, Cell.Empty],
           [Cell.Empty, Cell.Empty, Cell.Empty]], ∀ c ∈ row, c ≠ Cell.Empty)) :=
  ⟨⟨rfl, by decide⟩, claim_C4 _ ⟨rfl, by decide⟩⟩

/-- Claim C5: `result` fails with a detectable error exactly when the
action's coordinates are out of bounds, the target cell is occupied, or
the board is terminal; on a legal action of a non-terminal board it
returns a board without error. -/
theorem claim_C5 (b : Board) (h : Wf3 b) (a : Move) :
    ((∃ e, result b a = Except.error e) ↔
      (¬(a.1 < 3 ∧ a.2 < 3) ∨
       (∃ row c, b[a.1]? = some row ∧ row[a.2]? = some c ∧ c ≠ Cell.Empty) ∨
       terminal b = true)) ∧
    (a ∈ actions b → ∃ b2, result b a = Except.ok b2) := by
  refine ⟨?_, fun ha => ⟨resultB b a, result_ok ha⟩⟩
  rw [result_error_iff]
  exact not_mem_actions_iff h a

/-- Witness for claim C5 on the initial board and the corner action. -/
theorem claim_C5_witness :
    Wf3 initial_state ∧
    (((∃ e, result initial_state (0, 0) = Except.error e) ↔
      (¬((0 : Nat) < 3 ∧ (0 : Nat) < 3) ∨
       (∃ row c, initial_state[(0 : Nat)]? = some row ∧
          row[(0 : Nat)]? = some c ∧ c ≠ Cell.Empty) ∨
       terminal initial_state = true)) ∧
     (((0, 0) : Move) ∈ actions initial_state →
       ∃ b2, result initial_state (0, 0) = Except.ok b2)) :=
  ⟨⟨rfl, by decide⟩, claim_C5 initial_state ⟨rfl, by decide⟩ (0, 0)⟩

/-- Claim C6: for every picker that selects an element of any nonempty
list (modelling random.choice), `minimax` returns none on every terminal
board and some legal move on every non-terminal board, the initial board
included. -/
theorem claim_C6 (pick : List Move → Option Move)
    (hpick : ∀ l : List Move, l ≠ [] → ∃ x ∈ l, pick l = some x)
    (b : Board) :
    (terminal b = true → minimax pick b = none) ∧
    (terminal b = false → ∃ a ∈ actions b, minimax pick b = some a) := by
  constructor
  · intro ht
    rw [minimax, if_pos ht]
  · intro ht
    by_cases hinit : b = initial_state
    · subst hinit
      obtain ⟨x, hx, hpx⟩ := hpick (actions initial_state) (actions_ne_nil ht)
      refine ⟨x, hx, ?_⟩
      rw [minimax, if_neg (by simp [ht]), if_pos rfl]
      exact hpx
    · rcases player_cases ht with hp | hp
      · obtain ⟨a, ha, hmm, _⟩ := (minimax_opt pick ht hinit).1 hp
        exact ⟨a, ha, hmm⟩
      · obtain ⟨a, ha, hmm, _⟩ := (minimax_opt pick ht hinit).2 hp
        exact ⟨a, ha, hmm⟩

/-- Witness for claim C6 with the deterministic head picker on the
initial board. -/
theorem claim_C6_witness :
    ∃ a ∈ actions initial_state,
      minimax (fun l => l.head?) initial_state = some a :=
  (claim_C6 (fun l => l.head?)
    (fun l hl =>
      match l, hl with
      | x :: xs, _ => ⟨x, List.mem_cons_self x xs, rfl⟩
      | [], hl => absurd rfl hl) initial_state).2 (by decide)

/-- Claim C7: `player` returns none on every terminal board; on a
non-terminal board it returns `X` when the `X` and `O` counts are equal
(the empty board included) and `O` when there are strictly more `X` marks
than `O` marks. -/
theorem claim_C7 (b : Board) :
    (terminal b = true → player b = none) ∧
    (terminal b = false →
      (countX b = countO b → player b = some Cell.X) ∧
      (countO b < countX b → player b = some Cell.O)) := by
  constructor
  · intro ht
    have hinit : b ≠ initial_state := by
      intro he
      rw [he] at ht
      exact absurd ht (by decide)
    unfold player
    rw [if_neg hinit, if_pos ht]
  · intro ht
    exact ⟨fun hc => player_X_of_counts ht (le_of_eq hc),
           fun hc => player_O_of_counts ht hc⟩

/-- Witness for claim C7 at a won board, a balanced board and a board
with one extra `X`. -/
theorem claim_C7_witness :
    player
      [[Cell.X, Cell.X, Cell.X],
       [Cell.O, Cell.O, Cell.Empty],
       [Cell.Empty, Cell.Empty, Cell.Empty]] = none ∧
    player
      [[Cell.X, Cell.O, Cell.Empty],
       [Cell.Empty, Cell.Empty, Cell.Empty],
       [Cell.Empty, Cell.Empty, Cell.Empty]] = some Cell.X ∧
    player
      [[Cell.X, Cell.Empty, Cell.Empty],
       [Cell.Empty, Cell.Empty, Cell.Empty],
       [Cell.Empty, Cell.Empty, Cell.Empty]] = some Cell.O :=
  ⟨(claim_C7 _).1 (by decide),
   ((claim_C7 _).2 (by decide)).1 (by decide),
   ((claim_C7 _).2 (by decide)).2 (by decide)⟩

/-- Counterexample to claim C8 as stated: after `X` moves at `(2,0)` on
`[[X,O,X],[O,X,O],[E,E,E]]` the left diagonal (top-left to bottom-right)
`[X, X, Empty]` is not uniformly `X` — the winning line is the right
diagonal. -/
theorem claim_C8_cex :
    result
      [[Cell.X, Cell.O, Cell.X],
       [Cell.O, Cell.X, Cell.O],
       [Cell.Empty, Cell.Empty, Cell.Empty]] (2, 0) =
      Except.ok
        [[Cell.X, Cell.O, Cell.X],
         [Cell.O, Cell.X, Cell.O],
         [Cell.X, Cell.Empty, Cell.Empty]] ∧
    ¬((leftDiag
        [[Cell.X, Cell.O, Cell.X],
         [Cell.O, Cell.X, Cell.O],
         [Cell.X, Cell.Empty, Cell.Empty]]).all fun c => c == Cell.X) = true :=
  ⟨rfl, by decide⟩

/-- Claim C8 (amended): on the board `[[X,O,X],[O,X,O],[E,E,E]]` it is
`X`'s turn, and applying the move `(2,0)` via `result` yields a board on
which `X` has won via the right diagonal (top-right to bottom-left): that
diagonal is uniformly `X`, `winner` returns `X` and `utility` returns 1. -/
theorem claim_C8 :
    player
      [[Cell.X, Cell.O, Cell.X],
       [Cell.O, Cell.X, Cell.O],
       [Cell.Empty, Cell.Empty, Cell.Empty]] = some Cell.X ∧
    result
      [[Cell.X, Cell.O, Cell.X],
       [Cell.O, Cell.X, Cell.O],
       [Cell.Empty, Cell.Empty, Cell.Empty]] (2, 0) =
      Except.ok
        [[Cell.X, Cell.O, Cell.X],
         [Cell.O, Cell.X, Cell.O],
         [Cell.X, Cell.Empty, Cell.Empty]] ∧
    ((rightDiag
        [[Cell.X, Cell.O, Cell.X],
         [Cell.O, Cell.X, Cell.O],
         [Cell.X, Cell.Empty, Cell.Empty]]).all fun c => c == Cell.X) = true ∧
    winner
      [[Cell.X, Cell.O, Cell.X],
       [Cell.O, Cell.X, Cell.O],
       [Cell.X, Cell.Empty, Cell.Empty]] = some Cell.X ∧
    utility
      [[Cell.X, Cell.O, Cell.X],
       [Cell.O, Cell.X, Cell.O],
       [Cell.X, Cell.Empty, Cell.Empty]] = 1 :=
  ⟨by decide, rfl, by decide, by decide, by decide⟩

/-- Claim C9: the search recursion is well-founded — on every legal action
`result` returns the successor board `resultB`, which has strictly fewer
empty cells, and a well-formed 3x3 board has at most 9 empty cells, so the
recursion depth is bounded by 9.  (In this development `maximizing_action`
and `minimizing_action` are accordingly defined by well-founded recursion
on `countEmpty` and are total.) -/
theorem claim_C9 :
    (∀ (b : Board) (a : Move), a ∈ actions b →
      result b a = Except.ok (resultB b a) ∧
      countEmpty (resultB b a) < countEmpty b) ∧
    (∀ b : Board, Wf3 b → countEmpty b ≤ 9) := by
  refine ⟨fun b a ha => ⟨result_ok ha, countEmpty_resultB_lt ha⟩, fun b h => ?_⟩
  obtain ⟨a, b2, c, d, e, f, g, h2, i, rfl⟩ := wf3_shape h
  have hc1 : List.count Cell.Empty [a, b2, c] ≤ 3 := List.count_le_length ..
  have hc2 : List.count Cell.Empty [d, e, f] ≤ 3 := List.count_le_length ..
  have hc3 : List.count Cell.Empty [g, h2, i] ≤ 3 := List.count_le_length ..
  simp only [countEmpty, List.map_cons, List.map_nil, List.sum_cons, List.sum_nil]
  omega

/-- Witness for claim C9: the corner opening on the initial board. -/
theorem claim_C9_witness :
    (result initial_state (0, 0) = Except.ok (resultB initial_state (0, 0)) ∧
     countEmpty (resultB initial_state (0, 0)) < countEmpty initial_state) ∧
    countEmpty initial_state ≤ 9 :=
  ⟨claim_C9.1 initial_state (0, 0) (by decide),
   claim_C9.2 initial_state ⟨rfl, by decide⟩⟩

/-- Claim C10: on a non-terminal, non-initial board holding strictly more
`O` marks than `X` marks — a situation unreachable by legal alternating
play — `player` returns `X`, because the source tests
`count_of_x <= count_of_o` rather than strict equality. -/
theorem claim_C10 (b : Board) (ht : terminal b = false)
    (_hinit : b ≠ initial_state) (hc : countX b < countO b) :
    player b = some Cell.X :=
  player_X_of_counts ht (le_of_lt hc)

/-- Witness for claim C10 at a board with a single `O`. -/
theorem claim_C10_witness :
    player
      [[Cell.O, Cell.Empty, Cell.Empty],
       [Cell.Empty, Cell.Empty, Cell.Empty],
       [Cell.Empty, Cell.Empty, Cell.Empty]] = some Cell.X :=
  claim_C10 _ (by decide) (by decide) (by decide)

end TicTacToe

namespace TicTacToe

theorem player_initial : player initial_state = some Cell.X := rfl

theorem opening_facts : ∀ m ∈ actions initial_state,
    terminal (resultB initial_state m) = false := by
  decide

theorem certub_00 :
    ubChk 0 8 true (resultB initial_state (0, 0)) = true := by
  decide!

theorem certlb_00 :
    lbChk 0 8 true (resultB initial_state (0, 0)) = true := by
  decide!

theorem certub_01 :
    ubChk 0 8 true (resultB initial_state (0, 1)) = true := by
  decide!

theorem certlb_01 :
    lbChk 0 8 true (resultB initial_state (0, 1)) = true := by
  decide!

theorem certub_02 :
    ubChk 0 8 true (resultB initial_state (0, 2)) = true := by
  decide!

theorem certlb_02 :
    lbChk 0 8 true (resultB initial_state (0, 2)) = true := by
  decide!

theorem certub_10 :
    ubChk 0 8 true (resultB initial_state (1, 0)) = true := by
  decide!

theorem certlb_10 :
    lbChk 0 8 true (resultB initial_state (1, 0)) = true := by
  decide!

theorem certub_11 :
    ubChk 0 8 true (resultB initial_state (1, 1)) = true := by
  decide!

theorem certlb_11 :
    lbChk 0 8 true (resultB initial_state (1, 1)) = true := by
  decide!

theorem certub_12 :
    ubChk 0 8 true (resultB initial_state (1, 2)) = true := by
  decide!

theorem certlb_12 :
    lbChk 0 8 true (resultB initial_state (1, 2)) = true := by
  decide!

theorem certub_20 :
    ubChk 0 8 true (resultB initial_state (2, 0)) = true := by
  decide!

theorem certlb_20 :
    lbChk 0 8 true (resultB initial_state (2, 0)) = true := by
  decide!

theorem certub_21 :
    ubChk 0 8 true (resultB initial_state (2, 1)) = true := by
  decide!

theorem certlb_21 :
    lbChk 0 8 true (resultB initial_state (2, 1)) = true := by
  decide!

theorem certub_22 :
    ubChk 0 8 true (resultB initial_state (2, 2)) = true := by
  decide!

theorem certlb_22 :
    lbChk 0 8 true (resultB initial_state (2, 2)) = true := by
  decide!

theorem opening_certs : ∀ m ∈ actions initial_state,
    ubChk 0 8 true (resultB initial_state m) = true ∧
    lbChk 0 8 true (resultB initial_state m) = true := by
  have hact : actions initial_state =
      [(0, 0), (0, 1), (0, 2), (1, 0), (1, 1), (1, 2), (2, 0), (2, 1), (2, 2)] := by
    decide
  intro m hm
  rw [hact] at hm
  simp only [List.mem_cons, List.not_mem_nil, or_false] at hm
  rcases hm with rfl | rfl | rfl | rfl | rfl | rfl | rfl | rfl | rfl
  · exact ⟨certub_00, certlb_00⟩
  · exact ⟨certub_01, certlb_01⟩
  · exact ⟨certub_02, certlb_02⟩
  · exact ⟨certub_10, certlb_10⟩
  · exact ⟨certub_11, certlb_11⟩
  · exact ⟨certub_12, certlb_12⟩
  · exact ⟨certub_20, certlb_20⟩
  · exact ⟨certub_21, certlb_21⟩
  · exact ⟨certub_22, certlb_22⟩

theorem opening_minValue : ∀ m ∈ actions initial_state,
    minValue (resultB initial_state m) = 0 := by
  intro m hm
  have hwf : Wf3 (resultB initial_state m) := Wf3_resultB m Wf3_initial
  have hcnt : countEmpty (resultB initial_state m) ≤ 8 := by
    have := countEmpty_resultB hm
    rw [countEmpty_initial] at this
    omega
  have hcx : countX (resultB initial_state m) =
      countO (resultB initial_state m) + 1 := by
    have h1 := (counts_resultB_X hm player_initial).1
    have h2 := (counts_resultB_X hm player_initial).2
    have h3 := countX_initial
    have h4 := countO_initial
    omega
  obtain ⟨hub, hlb⟩ := opening_certs m hm
  have hs := chk_sound 8 0 (resultB initial_state m) hwf hcnt
  have hle := hs.2.1 hub (Or.inr hcx)
  have hge := hs.2.2.2 hlb (Or.inr hcx)
  omega

/-- Claim C2: whatever opening cell the randomized first move of `minimax`
selects, self-play in which both sides repeatedly apply the move returned
by `minimax` through `result` ends in a terminal board of utility 0: a
perfectly played game always draws. -/
theorem claim_C2 (pick : List Move → Option Move) (m : Move) (b1 : Board)
    (hb : result initial_state m = Except.ok b1) :
    terminal (selfPlay pick 9 b1) = true ∧ utility (selfPlay pick 9 b1) = 0 := by
  obtain ⟨hm, rfl⟩ := result_ok_inv hb
  have hterm := opening_facts m hm
  have hmv := opening_minValue m hm
  have hcx : countX (resultB initial_state m) =
      countO (resultB initial_state m) + 1 := by
    have h1 := (counts_resultB_X hm player_initial).1
    have h2 := (counts_resultB_X hm player_initial).2
    have h3 := countX_initial
    have h4 := countO_initial
    omega
  have hcnt : countEmpty (resultB initial_state m) ≤ 9 := by
    have := countEmpty_resultB hm
    rw [countEmpty_initial] at this
    omega
  have hne : resultB initial_state m ≠ initial_state := by
    intro he
    have := congrArg countX he
    rw [countX_initial] at this
    omega
  exact selfPlay_draw 9 pick _ hcnt hne (Or.inr (Or.inr ⟨hterm, hcx, hmv⟩))

/-- Witness for claim C2 at the corner opening with the deterministic
head picker. -/
theorem claim_C2_witness :
    terminal (selfPlay (fun l => l.head?) 9
      [[Cell.X, Cell.Empty, Cell.Empty],
       [Cell.Empty, Cell.Empty, Cell.Empty],
       [Cell.Empty, Cell.Empty, Cell.Empty]]) = true ∧
    utility (selfPlay (fun l => l.head?) 9
      [[Cell.X, Cell.Empty, Cell.Empty],
       [Cell.Empty, Cell.Empty, Cell.Empty],
       [Cell.Empty, Cell.Empty, Cell.Empty]]) = 0 :=
  claim_C2 (fun l => l.head?) (0, 0) _ rfl

end TicTacToe
